import Mathlib

/-!
Verification of the versioned-document state store of the web-lab-starter
repository (src/app/state_store.py, src/app/models.py, src/app/main.py).

The python runtime values handled by the store are JSON-like trees: dicts
with string keys, lists, strings, numbers, booleans and None.  They are
embedded as the inductive type `Json` below.  Python dicts are
insertion-ordered with unique keys; they are modelled as association lists,
and the predicate `Json.wf` states the unique-key invariant that every value
built by the python runtime satisfies.  JSON numbers are modelled as
integers: no claim under verification depends on fractional values, and
floating point is outside the shallow embedding.
-/

inductive Json where
  | null : Json
  | bool : Bool → Json
  | num : Int → Json
  | str : String → Json
  | arr : List Json → Json
  | obj : List (String × Json) → Json
deriving Repr

mutual
def Json.decEq : (a b : Json) → Decidable (a = b)
  | .null, .null => isTrue rfl
  | .null, .bool _ => isFalse Json.noConfusion
  | .null, .num _ => isFalse Json.noConfusion
  | .null, .str _ => isFalse Json.noConfusion
  | .null, .arr _ => isFalse Json.noConfusion
  | .null, .obj _ => isFalse Json.noConfusion
  | .bool _, .null => isFalse Json.noConfusion
  | .bool a, .bool b =>
      if h : a = b then isTrue (by rw [h]) else isFalse (by intro hh; cases hh; exact h rfl)
  | .bool _, .num _ => isFalse Json.noConfusion
  | .bool _, .str _ => isFalse Json.noConfusion
  | .bool _, .arr _ => isFalse Json.noConfusion
  | .bool _, .obj _ => isFalse Json.noConfusion
  | .num _, .null => isFalse Json.noConfusion
  | .num _, .bool _ => isFalse Json.noConfusion
  | .num a, .num b =>
      if h : a = b then isTrue (by rw [h]) else isFalse (by intro hh; cases hh; exact h rfl)
  | .num _, .str _ => isFalse Json.noConfusion
  | .num _, .arr _ => isFalse Json.noConfusion
  | .num _, .obj _ => isFalse Json.noConfusion
  | .str _, .null => isFalse Json.noConfusion
  | .str _, .bool _ => isFalse Json.noConfusion
  | .str _, .num _ => isFalse Json.noConfusion
  | .str a, .str b =>
      if h : a = b then isTrue (by rw [h]) else isFalse (by intro hh; cases hh; exact h rfl)
  | .str _, .arr _ => isFalse Json.noConfusion
  | .str _, .obj _ => isFalse Json.noConfusion
  | .arr _, .null => isFalse Json.noConfusion
  | .arr _, .bool _ => isFalse Json.noConfusion
  | .arr _, .num _ => isFalse Json.noConfusion
  | .arr _, .str _ => isFalse Json.noConfusion
  | .arr a, .arr b =>
      match decEqJsonList a b with
      | isTrue h => isTrue (by rw [h])
      | isFalse h => isFalse (by intro hh; cases hh; exact h rfl)
  | .arr _, .obj _ => isFalse Json.noConfusion
  | .obj _, .null => isFalse Json.noConfusion
  | .obj _, .bool _ => isFalse Json.noConfusion
  | .obj _, .num _ => isFalse Json.noConfusion
  | .obj _, .str _ => isFalse Json.noConfusion
  | .obj _, .arr _ => isFalse Json.noConfusion
  | .obj a, .obj b =>
      match decEqJsonFields a b with
      | isTrue h => isTrue (by rw [h])
      | isFalse h => isFalse (by intro hh; cases hh; exact h rfl)

def decEqJsonList : (a b : List Json) → Decidable (a = b)
  | [], [] => isTrue rfl
  | [], _ :: _ => isFalse (by intro h; cases h)
  | _ :: _, [] => isFalse (by intro h; cases h)
  | x :: xs, y :: ys =>
      match Json.decEq x y with
      | isFalse h1 => isFalse (by intro h; cases h; exact h1 rfl)
      | isTrue h1 =>
        match decEqJsonList xs ys with
        | isTrue h2 => isTrue (by rw [h1, h2])
        | isFalse h2 => isFalse (by intro h; cases h; exact h2 rfl)

def decEqJsonFields : (a b : List (String × Json)) → Decidable (a = b)
  | [], [] => isTrue rfl
  | [], _ :: _ => isFalse (by intro h; cases h)
  | _ :: _, [] => isFalse (by intro h; cases h)
  | (k1, v1) :: xs, (k2, v2) :: ys =>
      if hk : k1 = k2 then
        match Json.decEq v1 v2 with
        | isFalse h1 => isFalse (by intro h; cases h; exact h1 rfl)
        | isTrue h1 =>
          match decEqJsonFields xs ys with
          | isTrue h2 => isTrue (by rw [hk, h1, h2])
          | isFalse h2 => isFalse (by intro h; cases h; exact h2 rfl)
      else isFalse (by intro h; cases h; exact hk rfl)
end

instance : DecidableEq Json := Json.decEq

/-- Lookup of a key in a python dict modelled as an association list
(first occurrence; a well-formed dict has unique keys). -/
def getKey : List (String × Json) → String → Option Json
  | [], _ => none
  | (k, v) :: rest, key => if k = key then some v else getKey rest key

/-- Assignment `d[key] = v` on a python dict: replaces the value in place
when the key is present (keeping its position) and appends otherwise. -/
def setKey : List (String × Json) → String → Json → List (String × Json)
  | [], key, v => [(key, v)]
  | (k, w) :: rest, key, v =>
      if k = key then (key, v) :: rest else (k, w) :: setKey rest key v

/-- Deletion of a key from a python dict (removes the first occurrence). -/
def removeKey : List (String × Json) → String → List (String × Json)
  | [], _ => []
  | (k, w) :: rest, key => if k = key then rest else (k, w) :: removeKey rest key

def hasKey (l : List (String × Json)) (key : String) : Bool :=
  (getKey l key).isSome

/-- Keys of a dict are pairwise distinct. -/
def nodupKeys : List (String × Json) → Bool
  | [] => true
  | (k, _) :: rest => !(hasKey rest k) && nodupKeys rest

/-- List indexing, `xs[i]` as an Option. -/
def getIdx : List Json → Nat → Option Json
  | [], _ => none
  | x :: _, 0 => some x
  | _ :: xs, n + 1 => getIdx xs n

/-- List element assignment `xs[i] = v` (no-op when out of range). -/
def setIdx : List Json → Nat → Json → List Json
  | [], _, _ => []
  | _ :: xs, 0, v => v :: xs
  | x :: xs, n + 1, v => x :: setIdx xs n v

/-- Removal of the element at an index. -/
def eraseAt : List Json → Nat → List Json
  | [], _ => []
  | _ :: xs, 0 => xs
  | x :: xs, n + 1 => x :: eraseAt xs n

/-- Insertion of an element before an index. -/
def insertAt : List Json → Nat → Json → List Json
  | xs, 0, v => v :: xs
  | [], _ + 1, v => [v]
  | x :: xs, n + 1, v => x :: insertAt xs n v

mutual
/-- Well-formedness of an embedded python value: every dict in the tree has
pairwise distinct keys.  Every value produced by the python runtime
satisfies this by construction. -/
def Json.wf : Json → Bool
  | .obj fields => nodupKeys fields && wfFields fields
  | .arr xs => wfElems xs
  | _ => true

def wfFields : List (String × Json) → Bool
  | [] => true
  | (_, v) :: rest => v.wf && wfFields rest

def wfElems : List Json → Bool
  | [] => true
  | x :: xs => x.wf && wfElems xs
end

mutual
/-- Deep equality of embedded python values, as computed by the python
equality on parsed JSON documents: dict comparison ignores key order,
list comparison is positional. -/
def deq : Json → Json → Bool
  | .obj a, .obj b => deqFields a b && b.all (fun p => hasKey a p.1)
  | .arr a, .arr b => deqElems a b
  | .null, .null => true
  | .bool a, .bool b => a == b
  | .num a, .num b => a == b
  | .str a, .str b => a == b
  | _, _ => false

def deqFields : List (String × Json) → List (String × Json) → Bool
  | [], _ => true
  | (k, v) :: rest, b =>
      (match getKey b k with
       | some w => deq v w
       | none => false) && deqFields rest b

def deqElems : List Json → List Json → Bool
  | [], [] => true
  | x :: xs, y :: ys => deq x y && deqElems xs ys
  | _, _ => false
end

/-- One segment of a patch path: a dict key or a list index.  The wire
format renders both as strings inside a JSON pointer; they are kept
pre-parsed here (key escaping is not exercised by any claim). -/
inductive Seg where
  | key : String → Seg
  | idx : Nat → Seg
deriving Repr, DecidableEq

/-- One operation of a structural diff, as in the tree-patch wire contract:
add, replace or remove at a path. -/
inductive POp where
  | add : List Seg → Json → POp
  | replace : List Seg → Json → POp
  | remove : List Seg → POp
deriving Repr, DecidableEq

def pushSeg (s : Seg) : POp → POp
  | .add p v => .add (s :: p) v
  | .replace p v => .replace (s :: p) v
  | .remove p => .remove (s :: p)

def segToString : Seg → String
  | .key k => k
  | .idx i => toString i

/-- JSON-pointer rendering of a path, e.g. "/equipment/pump_1/status". -/
def renderPointer (p : List Seg) : String :=
  p.foldl (fun acc s => acc ++ "/" ++ segToString s) ""

/-- Wire rendering of one diff operation. -/
def opToJson : POp → Json
  | .add p v => .obj [("op", .str "add"), ("path", .str (renderPointer p)), ("value", v)]
  | .replace p v => .obj [("op", .str "replace"), ("path", .str (renderPointer p)), ("value", v)]
  | .remove p => .obj [("op", .str "remove"), ("path", .str (renderPointer p))]

/-- Wire rendering of a whole diff. -/
def patchToJson (ops : List POp) : Json :=
  .arr (ops.map opToJson)

/-- Modelled from the spec: standard tree-patch "add" applied in place.
An add at the root replaces the document; at a dict it sets the key; at a
list it inserts before the index (which must be at most the length). -/
def opAdd : Json → List Seg → Json → Option Json
  | _, [], v => some v
  | .obj fields, .key k :: rest, v =>
      match rest with
      | [] => some (.obj (setKey fields k v))
      | _ :: _ => do
          let sub ← getKey fields k
          let sub2 ← opAdd sub rest v
          pure (.obj (setKey fields k sub2))
  | .arr xs, .idx i :: rest, v =>
      match rest with
      | [] => if i ≤ xs.length then some (.arr (insertAt xs i v)) else none
      | _ :: _ => do
          let sub ← getIdx xs i
          let sub2 ← opAdd sub rest v
          pure (.arr (setIdx xs i sub2))
  | _, _, _ => none

/-- Modelled from the spec: standard tree-patch "replace"; the target
location must exist. -/
def opReplace : Json → List Seg → Json → Option Json
  | _, [], v => some v
  | .obj fields, .key k :: rest, v => do
      let sub ← getKey fields k
      let sub2 ← opReplace sub rest v
      pure (.obj (setKey fields k sub2))
  | .arr xs, .idx i :: rest, v => do
      let sub ← getIdx xs i
      let sub2 ← opReplace sub rest v
      pure (.arr (setIdx xs i sub2))
  | _, _, _ => none

/-- Modelled from the spec: standard tree-patch "remove"; the target
location must exist.  A remove at the root is never produced by the
differ and is rejected. -/
def opRemove : Json → List Seg → Option Json
  | _, [] => none
  | .obj fields, .key k :: rest =>
      match rest with
      | [] => if hasKey fields k then some (.obj (removeKey fields k)) else none
      | _ :: _ => do
          let sub ← getKey fields k
          let sub2 ← opRemove sub rest
          pure (.obj (setKey fields k sub2))
  | .arr xs, .idx i :: rest =>
      match rest with
      | [] => if i < xs.length then some (.arr (eraseAt xs i)) else none
      | _ :: _ => do
          let sub ← getIdx xs i
          let sub2 ← opRemove sub rest
          pure (.arr (setIdx xs i sub2))
  | _, _ => none

/-- Application of a single diff operation. -/
def applyOp (doc : Json) : POp → Option Json
  | .add p v => opAdd doc p v
  | .replace p v => opReplace doc p v
  | .remove p => opRemove doc p

/-- Modelled from the spec: a diff is applied strictly in list order; a
failing operation fails the whole application. -/
def applyPatch (ops : List POp) (doc : Json) : Option Json :=
  ops.foldlM applyOp doc

/-- Trailing "add" operations turning a list suffix into appended new
elements, starting at index i. -/
def addsFrom (i : Nat) : List Json → List POp
  | [] => []
  | y :: ys => POp.add [Seg.idx i] y :: addsFrom (i + 1) ys

mutual
/-- Modelled from the spec: the structural diff between the pre- and
post-mutation documents computed by jsonpatch.make_patch (the jsonpatch
library is external to the repository).  Per the spec it is a sequence of
add/replace/remove operations at paths which, applied in list order to the
pre-mutation document, yields the post-mutation one: dicts are compared
key-wise (removed keys, recursively changed keys, then added keys), lists
element-wise with trailing removals or additions, and unequal leaves are
replaced. -/
def diff : Json → Json → List POp
  | .obj o, .obj n =>
      diffFields o n
        ++ (n.filter (fun p => !(hasKey o p.1))).map (fun p => POp.add [Seg.key p.1] p.2)
  | .arr o, .arr n => diffElems 0 o n
  | o, n => if o = n then [] else [POp.replace [] n]

def diffFields : List (String × Json) → List (String × Json) → List POp
  | [], _ => []
  | (k, v) :: rest, n =>
      (match getKey n k with
       | none => [POp.remove [Seg.key k]]
       | some w => (diff v w).map (pushSeg (Seg.key k)))
        ++ diffFields rest n

def diffElems : Nat → List Json → List Json → List POp
  | i, [], ys => addsFrom i ys
  | i, _ :: xs, [] => POp.remove [Seg.idx i] :: diffElems i xs []
  | i, x :: xs, y :: ys =>
      (diff x y).map (pushSeg (Seg.idx i)) ++ diffElems (i + 1) xs ys
end

mutual
/-- The document obtained by applying `diff o n` to `o`: equal to n up to
dict key order (shared keys keep their position in o, new keys are
appended). -/
def patchResult : Json → Json → Json
  | .obj o, .obj n =>
      .obj (patchFields o n ++ n.filter (fun p => !(hasKey o p.1)))
  | .arr o, .arr n => .arr (patchElems o n)
  | _, n => n

def patchFields : List (String × Json) → List (String × Json) → List (String × Json)
  | [], _ => []
  | (k, v) :: rest, n =>
      match getKey n k with
      | none => patchFields rest n
      | some w => (k, patchResult v w) :: patchFields rest n

def patchElems : List Json → List Json → List Json
  | [], ys => ys
  | _ :: _, [] => []
  | x :: xs, y :: ys => patchResult x y :: patchElems xs ys
end

/-- Splitting of a character list on the slash character; the segment
under construction is accumulated in reversed order. -/
def splitSlash : List Char → List Char → List String
  | [], acc => [String.mk acc.reverse]
  | c :: cs, acc =>
      if c = '/' then String.mk acc.reverse :: splitSlash cs []
      else splitSlash cs (c :: acc)

/-- Path splitting of StateStore.apply_value and StateStore.get:
python computes path.strip("/").split("/") and keeps the non-empty
segments, which is the same list as splitting on the slash character and
dropping empty segments. -/
def parsePath (path : String) : List String :=
  (splitSlash path.data []).filter (fun k => k ≠ "")

/-- The mutation walk of StateStore.apply_value: every intermediate
segment that is missing or not itself a dict is replaced by an empty dict
(auto-vivification), then the leaf key is set to the new value. -/
def setPathViv (fields : List (String × Json)) : List String → Json → List (String × Json)
  | [], _ => fields
  | [k], v => setKey fields k v
  | k :: k2 :: ks, v =>
      let child : List (String × Json) :=
        match getKey fields k with
        | some (.obj o) => o
        | _ => []
      setKey fields k (.obj (setPathViv child (k2 :: ks) v))

/-- Navigation used by StateStore.get: repeated subscription current[key];
subscription of a non-dict by a string key or of a dict missing the key
raises in python, modelled as none. -/
def getJsonPath : Json → List String → Option Json
  | j, [] => some j
  | .obj fields, k :: rest => (getKey fields k).bind (fun v => getJsonPath v rest)
  | _, _ :: _ => none

/-- StateStore.get: parse the path and navigate; the returned value is a
deep copy, which is the value itself in this functional model. -/
def storeGet (st : List (String × Json)) (path : String) : Option Json :=
  getJsonPath (Json.obj st) (parsePath path)

/-- StateStore.snapshot: a deep independent copy of the current document,
which is the identity in this functional model. -/
def snapshot (st : List (String × Json)) : List (String × Json) := st

/-- Model of the python int(x) coercion used on the version field and on
command parameters: ints map to themselves, booleans to 0 or 1, strings
are parsed as optionally signed decimal numerals, anything else raises.
Leading or trailing whitespace and underscore separators accepted by
python are not modelled; no claim exercises them. -/
def pyInt : Json → Option Int
  | .num n => some n
  | .bool b => some (if b then 1 else 0)
  | .str s => s.toInt?
  | _ => none

/-- Validation of one SensorState value (models.py): value must be a
number, unit a string, status one of the three literals and defaults to
"normal"; extra fields are dropped (pydantic default); the dump lists the
declared fields in declaration order.  The pydantic lax coercions of
numeric strings to numbers are not modelled; no claim exercises them. -/
def validateSensor (j : Json) : Option Json :=
  match j with
  | .obj fields =>
    match getKey fields "value", getKey fields "unit",
          (getKey fields "status").getD (Json.str "normal") with
    | some (.num v), some (.str u), .str s =>
        if s = "normal" || s = "warning" || s = "error" then
          some (.obj [("value", .num v), ("unit", .str u), ("status", .str s)])
        else none
    | _, _, _ => none
  | _ => none

/-- Validation of one EquipmentState value (models.py): status must be a
string; extra fields are allowed and preserved, dumped after the declared
status field in their original order. -/
def validateEquipment (j : Json) : Option Json :=
  match j with
  | .obj fields =>
    match getKey fields "status" with
    | some (.str s) =>
        some (.obj (("status", Json.str s) :: fields.filter (fun p => p.1 ≠ "status")))
    | _ => none
  | _ => none

/-- Validation of one AlertState value (models.py): id and message must be
strings, severity one of the three literals defaulting to "info", and the
timestamp a string (datetime parsing is not modelled; a missing timestamp
would be filled from the wall clock by pydantic, which is outside the
deterministic embedding and exercised by no claim, so it is rejected
here). -/
def validateAlert (j : Json) : Option Json :=
  match j with
  | .obj fields =>
    match getKey fields "id", getKey fields "message",
          (getKey fields "severity").getD (Json.str "info"),
          getKey fields "timestamp" with
    | some (.str i), some (.str m), .str sev, some (.str ts) =>
        if sev = "info" || sev = "warning" || sev = "error" then
          some (.obj [("id", .str i), ("message", .str m),
                      ("severity", .str sev), ("timestamp", .str ts)])
        else none
    | _, _, _, _ => none
  | _ => none

/-- Validation of every value of a dict field, keeping keys and order. -/
def validateVals (f : Json → Option Json) : List (String × Json) → Option (List (String × Json))
  | [] => some []
  | (k, v) :: rest =>
      match f v, validateVals f rest with
      | some v2, some rest2 => some ((k, v2) :: rest2)
      | _, _ => none

/-- Validation of every element of the alerts list, keeping order. -/
def validateAlerts : List Json → Option (List Json)
  | [] => some []
  | x :: xs =>
      match validateAlert x, validateAlerts xs with
      | some x2, some xs2 => some (x2 :: xs2)
      | _, _ => none

/-- The validated in-memory form of LabStateModel (models.py). -/
structure LabStateModel where
  sensors : List (String × Json)
  equipment : List (String × Json)
  alerts : List Json
  version : Int
deriving Repr, DecidableEq

/-- LabStateModel.model_validate: sensors and equipment must be dicts of
valid entries, alerts a list of valid entries, version an int defaulting
to 1 (a boolean is rejected by pydantic v2 for an int field; the lax
coercion of numeric strings is not modelled).  Extra top-level keys are
ignored and dropped. -/
def model_validate (st : List (String × Json)) : Option LabStateModel :=
  match getKey st "sensors", getKey st "equipment", getKey st "alerts" with
  | some (.obj sRaw), some (.obj eRaw), some (.arr aRaw) =>
    match validateVals validateSensor sRaw, validateVals validateEquipment eRaw,
          validateAlerts aRaw with
    | some ss, some es, some as2 =>
      match getKey st "version" with
      | none => some ⟨ss, es, as2, 1⟩
      | some (.num n) => some ⟨ss, es, as2, n⟩
      | some _ => none
    | _, _, _ => none
  | _, _, _ => none

/-- LabStateModel.model_dump in json mode: the declared fields in
declaration order. -/
def model_dump (m : LabStateModel) : List (String × Json) :=
  [("sensors", .obj m.sensors), ("equipment", .obj m.equipment),
   ("alerts", .arr m.alerts), ("version", .num m.version)]

/-- StateStore.apply_value (state_store.py): capture the old state, parse
the path (an empty segment list raises before any mutation), mutate with
auto-vivification, set version to int(state.get("version", 0)) + 1,
re-validate the whole document replacing the live state by the normalized
dump (a failure leaves the already-mutated state in place, with the
version incremented when the increment step was reached), then diff the
old state against the new normalized state and return the diff together
with the new version.  The python error text is abbreviated to a fixed
message per raise site. -/
def apply_value (st : List (String × Json)) (path : String) (value : Json) :
    List (String × Json) × Except String (List POp × Int) :=
  match parsePath path with
  | [] => (st, .error "path must not be empty")
  | k :: ks =>
    let st2 := setPathViv st (k :: ks) value
    match pyInt ((getKey st2 "version").getD (Json.num 0)) with
    | none => (st2, .error "int conversion failed")
    | some n =>
      let st3 := setKey st2 "version" (Json.num (n + 1))
      match model_validate st3 with
      | none => (st3, .error "state validation failed")
      | some m =>
        let stNew := model_dump m
        (stNew, .ok (diff (Json.obj st) (Json.obj stNew), m.version))

/-- StateStore.replace_state: validate the input; on success the live
state becomes the normalized dump, on failure the pydantic error
propagates and the live state is untouched. -/
def replace_state (st : List (String × Json)) (raw : List (String × Json)) :
    List (String × Json) × Except String Unit :=
  match model_validate raw with
  | none => (st, .error "validation error")
  | some m => (model_dump m, .ok ())

/-- Outcome of one _handle_command call (main.py): the state afterwards,
the returned version or the raised error, and the (patch, version) pair
handed to broadcast_patch when one was broadcast.  Persistence is an
external collaborator and is not modelled. -/
instance {ε α : Type} [DecidableEq ε] [DecidableEq α] : DecidableEq (Except ε α) :=
  fun a b =>
    match a, b with
    | .ok x, .ok y =>
        if h : x = y then isTrue (by rw [h]) else isFalse (by intro hh; cases hh; exact h rfl)
    | .ok _, .error _ => isFalse (by intro h; cases h)
    | .error _, .ok _ => isFalse (by intro h; cases h)
    | .error x, .error y =>
        if h : x = y then isTrue (by rw [h]) else isFalse (by intro hh; cases hh; exact h rfl)

structure CommandOutcome where
  state : List (String × Json)
  result : Except String Int
  broadcastMsg : Option (List POp × Int)
deriving Repr, DecidableEq

/-- The _handle_command dispatcher (main.py): toggle_pump reads the pump
status and flips between "running" and "stopped" (any status other than
"running" toggles to "running"); set_pump_speed coerces the speed
parameter (default 1000) with int() and writes it; an unknown command
raises an HTTP 400 naming the command before any mutation.  On success
the (patch, version) pair is broadcast. -/
def handle_command (command : String) (params : List (String × Json))
    (st : List (String × Json)) : CommandOutcome :=
  if command = "toggle_pump" then
    match storeGet st "equipment/pump_1/status" with
    | none => ⟨st, .error "path error", none⟩
    | some cur =>
      let newStatus := if cur = Json.str "running" then "stopped" else "running"
      match apply_value st "equipment/pump_1/status" (Json.str newStatus) with
      | (st2, .ok (patch, version)) => ⟨st2, .ok version, some (patch, version)⟩
      | (st2, .error e) => ⟨st2, .error e, none⟩
  else if command = "set_pump_speed" then
    match pyInt ((getKey params "speed").getD (Json.num 1000)) with
    | none => ⟨st, .error "int conversion failed", none⟩
    | some speed =>
      match apply_value st "equipment/pump_1/speed" (Json.num speed) with
      | (st2, .ok (patch, version)) => ⟨st2, .ok version, some (patch, version)⟩
      | (st2, .error e) => ⟨st2, .error e, none⟩
  else ⟨st, .error ("Unknown command: " ++ command), none⟩

/-- A sequence of apply_value calls: fails at the first failing call,
otherwise returns the list of returned versions and the final state. -/
def runSeq (st : List (String × Json)) :
    List (String × Json) → Except String (List Int × List (String × Json))
  | [] => .ok ([], st)
  | (p, v) :: rest =>
    match apply_value st p v with
    | (_, .error e) => .error e
    | (st2, .ok (_, ver)) =>
      match runSeq st2 rest with
      | .error e => .error e
      | .ok (vers, stf) => .ok (ver :: vers, stf)

/-- The version sequence V+1, V+2, ..., V+N. -/
def versionsFrom (V : Int) : Nat → List Int
  | 0 => []
  | n + 1 => (V + 1) :: versionsFrom (V + 1) n

/-- The broadcast message for a (patch, version) pair
(ConnectionManager.broadcast_patch, main.py). -/
def mkPatchMessage (patch : List POp) (version : Int) : Json :=
  .obj [("type", .str "patch"), ("patch", patchToJson patch), ("version", .num version)]

/-- ConnectionManager.broadcast_patch (main.py): snapshot the registry
under its lock, send the message to every observer in the snapshot
collecting the ids whose send raised, then remove exactly those ids from
the registry after the pass.  The registry is the list of client ids in
insertion order; which sends fail during this pass is abstracted by the
predicate fails.  Returns the (client, message) deliveries in order and
the registry afterwards. -/
def broadcast_patch (conns : List String) (fails : String → Bool)
    (patch : List POp) (version : Int) :
    List (String × Json) × List String :=
  let message := mkPatchMessage patch version
  let items := conns
  let sent := (items.filter (fun c => !(fails c))).map (fun c => (c, message))
  let disconnected := items.filter fails
  let conns2 := if disconnected.isEmpty then conns
                else conns.filter (fun c => !(disconnected.contains c))
  (sent, conns2)

/-- Operations safe to transport below a path segment: everything except a
remove at the root (which the differ never produces). -/
def liftSafe : POp → Bool
  | .replace _ _ => true
  | .add p _ => !p.isEmpty
  | .remove p => !p.isEmpty

/-- A minimal schema-valid document used in the concrete scenarios: no
sensors, one running pump, no alerts, version 1, already in normalized
dump form. -/
def pumpDoc : List (String × Json) :=
  [("sensors", .obj []),
   ("equipment", .obj [("pump_1", .obj [("status", .str "running")])]),
   ("alerts", .arr []),
   ("version", .num 1)]

/-- The document after one toggle_pump on pumpDoc. -/
def pumpDocStopped : List (String × Json) :=
  [("sensors", .obj []),
   ("equipment", .obj [("pump_1", .obj [("status", .str "stopped")])]),
   ("alerts", .arr []),
   ("version", .num 2)]

/-- The document after a second toggle_pump. -/
def pumpDocRunning3 : List (String × Json) :=
  [("sensors", .obj []),
   ("equipment", .obj [("pump_1", .obj [("status", .str "running")])]),
   ("alerts", .arr []),
   ("version", .num 3)]

/-- The diff of the first toggle. -/
def togglePatch1 : List POp :=
  [POp.replace [Seg.key "equipment", Seg.key "pump_1", Seg.key "status"] (Json.str "stopped"),
   POp.replace [Seg.key "version"] (Json.num 2)]

/-- The diff of the second toggle. -/
def togglePatch2 : List POp :=
  [POp.replace [Seg.key "equipment", Seg.key "pump_1", Seg.key "status"] (Json.str "running"),
   POp.replace [Seg.key "version"] (Json.num 3)]

/-- The starting document of the concrete toggle scenario exactly as the
specification states it, without the sensors and alerts fields that the
schema requires. -/
def pumpOnlyDoc : List (String × Json) :=
  [("equipment", .obj [("pump_1", .obj [("status", .str "running")])]),
   ("version", .num 1)]

/-- A schema-invalid document with an integer version, reachable by a
failed mutation: the temperature sensor entry is a bare string. -/
def invalidDoc : List (String × Json) :=
  [("sensors", .obj [("temperature", .str "bad")]),
   ("equipment", .obj []),
   ("alerts", .arr []),
   ("version", .num 2)]

/-- The document and patch produced by the auto-vivification scenario. -/
def newDeviceDoc : List (String × Json) :=
  [("sensors", .obj []),
   ("equipment", .obj [("pump_1", .obj [("status", .str "running")]),
                       ("new_device", .obj [("status", .str "idle")])]),
   ("alerts", .arr []),
   ("version", .num 2)]

def newDevicePatch : List POp :=
  [POp.add [Seg.key "equipment", Seg.key "new_device"] (Json.obj [("status", Json.str "idle")]),
   POp.replace [Seg.key "version"] (Json.num 2)]

/-- The normalized state after the version-targeting counterexample call. -/
def verDoc101 : List (String × Json) :=
  [("sensors", .obj []),
   ("equipment", .obj [("pump_1", .obj [("status", .str "running")])]),
   ("alerts", .arr []),
   ("version", .num 101)]

/-! Association-list lemmas for the python dict model. -/

theorem hasKey_eq_false (l : List (String × Json)) (k : String) :
    hasKey l k = false ↔ getKey l k = none := by
  simp [hasKey]

theorem hasKey_cons (k0 : String) (w0 : Json) (rest : List (String × Json)) (k : String) :
    hasKey ((k0, w0) :: rest) k = (k0 == k || hasKey rest k) := by
  by_cases h : k0 = k <;> simp [hasKey, getKey, h]

theorem getKey_setKey_self (l : List (String × Json)) (k : String) (v : Json) :
    getKey (setKey l k v) k = some v := by
  induction l with
  | nil => simp [setKey, getKey]
  | cons p rest ih =>
    obtain ⟨k0, w0⟩ := p
    by_cases h : k0 = k
    · simp [setKey, getKey, h]
    · simp [setKey, getKey, h, ih]

theorem getKey_setKey_ne (l : List (String × Json)) (k k2 : String) (v : Json)
    (h : k2 ≠ k) : getKey (setKey l k v) k2 = getKey l k2 := by
  have hne : ¬(k = k2) := fun hh => h hh.symm
  induction l with
  | nil => simp [setKey, getKey, hne]
  | cons p rest ih =>
    obtain ⟨k0, w0⟩ := p
    by_cases h0 : k0 = k
    · subst h0
      simp [setKey, getKey, hne]
    · by_cases h2 : k0 = k2
      · subst h2
        simp [setKey, getKey, h, h0]
      · simp [setKey, getKey, h0, h2, ih]

theorem setKey_setKey (l : List (String × Json)) (k : String) (v w : Json) :
    setKey (setKey l k v) k w = setKey l k w := by
  induction l with
  | nil => simp [setKey]
  | cons p rest ih =>
    obtain ⟨k0, w0⟩ := p
    by_cases h : k0 = k
    · simp [setKey, h]
    · simp [setKey, h, ih]

theorem getKey_append_not (l1 l2 : List (String × Json)) (k : String)
    (h : getKey l1 k = none) : getKey (l1 ++ l2) k = getKey l2 k := by
  induction l1 with
  | nil => simp
  | cons p rest ih =>
    obtain ⟨k0, w0⟩ := p
    by_cases h0 : k0 = k
    · simp [getKey, h0] at h
    · simp [getKey, h0] at h ⊢
      exact ih h

theorem hasKey_append (l1 l2 : List (String × Json)) (k : String) :
    hasKey (l1 ++ l2) k = (hasKey l1 k || hasKey l2 k) := by
  induction l1 with
  | nil => simp [hasKey, getKey]
  | cons p rest ih =>
    obtain ⟨k0, w0⟩ := p
    by_cases h0 : k0 = k
    · simp [hasKey, getKey, h0]
    · simp [hasKey, getKey, h0]
      simpa [hasKey] using ih

theorem setKey_append_not (l1 l2 : List (String × Json)) (k : String) (v : Json)
    (h : getKey l1 k = none) : setKey (l1 ++ l2) k v = l1 ++ setKey l2 k v := by
  induction l1 with
  | nil => simp
  | cons p rest ih =>
    obtain ⟨k0, w0⟩ := p
    by_cases h0 : k0 = k
    · simp [getKey, h0] at h
    · simp [getKey, h0] at h
      simp [setKey, h0, ih h]

theorem removeKey_append_not (l1 l2 : List (String × Json)) (k : String)
    (h : getKey l1 k = none) : removeKey (l1 ++ l2) k = l1 ++ removeKey l2 k := by
  induction l1 with
  | nil => simp
  | cons p rest ih =>
    obtain ⟨k0, w0⟩ := p
    by_cases h0 : k0 = k
    · simp [getKey, h0] at h
    · simp [getKey, h0] at h
      simp [removeKey, h0, ih h]

theorem setKey_not_has (l : List (String × Json)) (k : String) (v : Json)
    (h : getKey l k = none) : setKey l k v = l ++ [(k, v)] := by
  induction l with
  | nil => simp [setKey]
  | cons p rest ih =>
    obtain ⟨k0, w0⟩ := p
    by_cases h0 : k0 = k
    · simp [getKey, h0] at h
    · simp [getKey, h0] at h
      simp [setKey, h0, ih h]

theorem hasKey_of_mem (l : List (String × Json)) (p : String × Json)
    (h : p ∈ l) : hasKey l p.1 = true := by
  induction l with
  | nil => cases h
  | cons q rest ih =>
    obtain ⟨k0, w0⟩ := q
    rcases List.mem_cons.mp h with h1 | h1
    · subst h1
      simp [hasKey, getKey]
    · by_cases h0 : k0 = p.1
      · simp [hasKey, getKey, h0]
      · simp [hasKey, getKey, h0]
        simpa [hasKey] using ih h1

theorem getKey_eq_some_of_mem (l : List (String × Json)) (k : String) (v : Json)
    (hnd : nodupKeys l = true) (hm : (k, v) ∈ l) : getKey l k = some v := by
  induction l with
  | nil => cases hm
  | cons p rest ih =>
    obtain ⟨k0, w0⟩ := p
    simp only [nodupKeys, Bool.and_eq_true, Bool.not_eq_true'] at hnd
    rcases List.mem_cons.mp hm with h | h
    · simp only [Prod.mk.injEq] at h
      obtain ⟨rfl, rfl⟩ := h
      simp [getKey]
    · by_cases h0 : k0 = k
      · exfalso
        subst h0
        have := hasKey_of_mem rest (k0, v) h
        simp [this] at hnd
      · simp [getKey, h0]
        exact ih hnd.2 h

theorem mem_of_getKey (l : List (String × Json)) (k : String) (v : Json)
    (h : getKey l k = some v) : (k, v) ∈ l := by
  induction l with
  | nil => simp [getKey] at h
  | cons p rest ih =>
    obtain ⟨k0, w0⟩ := p
    by_cases h0 : k0 = k
    · simp [getKey, h0] at h
      simp [h0, h]
    · simp [getKey, h0] at h
      exact List.mem_cons_of_mem _ (ih h)

theorem nodupKeys_filter (l : List (String × Json)) (q : String × Json → Bool)
    (h : nodupKeys l = true) : nodupKeys (l.filter q) = true := by
  induction l with
  | nil => simp [nodupKeys]
  | cons p rest ih =>
    obtain ⟨k0, w0⟩ := p
    simp only [nodupKeys, Bool.and_eq_true, Bool.not_eq_true'] at h
    by_cases hq : q (k0, w0)
    · simp only [List.filter_cons, hq, if_true, nodupKeys, Bool.and_eq_true,
        Bool.not_eq_true']
      refine ⟨?_, ih h.2⟩
      by_cases hh : hasKey (rest.filter q) k0 = true
      · exfalso
        rw [hasKey] at hh
        obtain ⟨v, hv⟩ := Option.isSome_iff_exists.mp hh
        have hmem : (k0, v) ∈ rest := (List.mem_filter.mp (mem_of_getKey _ _ _ hv)).1
        have := hasKey_of_mem rest (k0, v) hmem
        simp [this] at h
      · simpa using hh
    · simpa [List.filter_cons, hq] using ih h.2

/-! Index-list lemmas. -/

theorem getIdx_append_length (pre : List Json) (x : Json) (xs : List Json) :
    getIdx (pre ++ x :: xs) pre.length = some x := by
  induction pre with
  | nil => simp [getIdx]
  | cons y ys ih => simpa [getIdx] using ih

theorem setIdx_append_length (pre : List Json) (x : Json) (xs : List Json) (v : Json) :
    setIdx (pre ++ x :: xs) pre.length v = pre ++ v :: xs := by
  induction pre with
  | nil => simp [setIdx]
  | cons y ys ih => simpa [setIdx] using ih

theorem eraseAt_append_length (pre : List Json) (x : Json) (xs : List Json) :
    eraseAt (pre ++ x :: xs) pre.length = pre ++ xs := by
  induction pre with
  | nil => simp [eraseAt]
  | cons y ys ih => simpa [eraseAt] using ih

theorem insertAt_length (pre : List Json) (v : Json) :
    insertAt pre pre.length v = pre ++ [v] := by
  induction pre with
  | nil => simp [insertAt]
  | cons y ys ih => simpa [insertAt] using ih

theorem getIdx_setIdx_self (xs : List Json) (i : Nat) (sub v : Json)
    (h : getIdx xs i = some sub) : getIdx (setIdx xs i v) i = some v := by
  induction xs generalizing i with
  | nil => simp [getIdx] at h
  | cons y ys ih =>
    cases i with
    | zero => simp [getIdx, setIdx]
    | succ n =>
      simp only [getIdx] at h
      simpa [getIdx, setIdx] using ih n h

theorem setIdx_setIdx (xs : List Json) (i : Nat) (v w : Json) :
    setIdx (setIdx xs i v) i w = setIdx xs i w := by
  induction xs generalizing i with
  | nil => simp [setIdx]
  | cons y ys ih =>
    cases i with
    | zero => simp [setIdx]
    | succ n => simpa [setIdx] using ih n

/-! Size lemmas for strong induction over Json trees. -/

theorem sizeOf_val_lt_fields (l : List (String × Json)) (k : String) (v : Json)
    (h : (k, v) ∈ l) : sizeOf v < sizeOf l := by
  induction l with
  | nil => cases h
  | cons p rest ih =>
    rcases List.mem_cons.mp h with h1 | h1
    · subst h1
      simp
      omega
    · have := ih h1
      simp
      omega

theorem sizeOf_val_lt_obj (l : List (String × Json)) (k : String) (v : Json)
    (h : (k, v) ∈ l) : sizeOf v < sizeOf (Json.obj l) := by
  have := sizeOf_val_lt_fields l k v h
  simp
  omega

theorem sizeOf_elem_lt_elems (xs : List Json) (x : Json) (h : x ∈ xs) :
    sizeOf x < sizeOf xs := by
  induction xs with
  | nil => cases h
  | cons y ys ih =>
    rcases List.mem_cons.mp h with h1 | h1
    · subst h1
      simp
      omega
    · have := ih h1
      simp
      omega

theorem sizeOf_elem_lt_arr (xs : List Json) (x : Json) (h : x ∈ xs) :
    sizeOf x < sizeOf (Json.arr xs) := by
  have := sizeOf_elem_lt_elems xs x h
  simp
  omega

/-! Well-formedness member lemmas. -/

theorem wf_obj (l : List (String × Json)) :
    (Json.obj l).wf = (nodupKeys l && wfFields l) := by
  simp [Json.wf]

theorem wf_arr (xs : List Json) : (Json.arr xs).wf = wfElems xs := by
  simp [Json.wf]

theorem wf_val_of_mem (l : List (String × Json)) (k : String) (v : Json)
    (hw : wfFields l = true) (h : (k, v) ∈ l) : v.wf = true := by
  induction l with
  | nil => cases h
  | cons p rest ih =>
    obtain ⟨k0, w0⟩ := p
    simp only [wfFields, Bool.and_eq_true] at hw
    rcases List.mem_cons.mp h with h1 | h1
    · simp only [Prod.mk.injEq] at h1
      obtain ⟨rfl, rfl⟩ := h1
      exact hw.1
    · exact ih hw.2 h1

theorem wf_elem_of_mem (xs : List Json) (x : Json)
    (hw : wfElems xs = true) (h : x ∈ xs) : x.wf = true := by
  induction xs with
  | nil => cases h
  | cons y ys ih =>
    simp only [wfElems, Bool.and_eq_true] at hw
    rcases List.mem_cons.mp h with h1 | h1
    · subst h1
      exact hw.1
    · exact ih hw.2 h1

theorem wfFields_filter (l : List (String × Json)) (q : String × Json → Bool)
    (h : wfFields l = true) : wfFields (l.filter q) = true := by
  induction l with
  | nil => simp [wfFields]
  | cons p rest ih =>
    simp only [wfFields, Bool.and_eq_true] at h
    by_cases hq : q p
    · obtain ⟨k0, w0⟩ := p
      simpa [List.filter_cons, hq, wfFields] using ⟨h.1, ih h.2⟩
    · simpa [List.filter_cons, hq] using ih h.2

/-! Patch application basics. -/

theorem applyPatch_nil (doc : Json) : applyPatch [] doc = some doc := rfl

theorem applyPatch_cons (op : POp) (ops : List POp) (doc : Json) :
    applyPatch (op :: ops) doc = (applyOp doc op).bind (applyPatch ops) := by
  cases h : applyOp doc op <;> simp [applyPatch, List.foldlM, h]

theorem applyPatch_append (l1 l2 : List POp) (doc : Json) :
    applyPatch (l1 ++ l2) doc = (applyPatch l1 doc).bind (applyPatch l2) := by
  induction l1 generalizing doc with
  | nil => simp [applyPatch_nil]
  | cons op ops ih =>
    rw [List.cons_append, applyPatch_cons, applyPatch_cons]
    cases h : applyOp doc op with
    | none => simp
    | some doc2 => simp [ih]


theorem liftSafe_pushSeg (s : Seg) (op : POp) : liftSafe (pushSeg s op) = true := by
  cases op <;> simp [pushSeg, liftSafe]

theorem liftSafe_addsFrom (ys : List Json) : ∀ i, ∀ op ∈ addsFrom i ys, liftSafe op = true := by
  induction ys with
  | nil => intro i op h; cases h
  | cons y ys ih =>
    intro i op h
    rcases List.mem_cons.mp h with h1 | h1
    · subst h1; simp [liftSafe]
    · exact ih (i + 1) op h1

theorem liftSafe_diffFields (l n : List (String × Json)) :
    ∀ op ∈ diffFields l n, liftSafe op = true := by
  induction l with
  | nil => intro op h; simp [diffFields] at h
  | cons p rest ih =>
    obtain ⟨k, v⟩ := p
    intro op h
    rw [diffFields] at h
    rcases List.mem_append.mp h with h1 | h1
    · cases hg : getKey n k with
      | none =>
        rw [hg] at h1
        simp at h1
        subst h1
        simp [liftSafe]
      | some w =>
        rw [hg] at h1
        obtain ⟨op0, _, rfl⟩ := List.mem_map.mp h1
        exact liftSafe_pushSeg _ _
    · exact ih op h1

theorem liftSafe_diffElems (xs : List Json) :
    ∀ i ys, ∀ op ∈ diffElems i xs ys, liftSafe op = true := by
  induction xs with
  | nil =>
    intro i ys op h
    rw [diffElems] at h
    exact liftSafe_addsFrom ys i op h
  | cons x xs ih =>
    intro i ys op h
    cases ys with
    | nil =>
      rw [diffElems] at h
      rcases List.mem_cons.mp h with h1 | h1
      · subst h1; simp [liftSafe]
      · exact ih i [] op h1
    | cons y ys =>
      rw [diffElems] at h
      rcases List.mem_append.mp h with h1 | h1
      · obtain ⟨op0, _, rfl⟩ := List.mem_map.mp h1
        exact liftSafe_pushSeg _ _
      · exact ih (i + 1) ys op h1

theorem liftSafe_diff (a b : Json) : ∀ op ∈ diff a b, liftSafe op = true := by
  intro op h
  cases a with
  | obj o =>
    cases b with
    | obj n =>
      rw [diff] at h
      rcases List.mem_append.mp h with h1 | h1
      · exact liftSafe_diffFields o n op h1
      · obtain ⟨p, _, rfl⟩ := List.mem_map.mp h1
        simp [liftSafe]
    | null | bool _ | num _ | str _ | arr _ =>
      rw [diff.eq_def] at h
      split at h <;>
        solve
          | simp at h
          | simp_all [liftSafe]
  | arr o =>
    cases b with
    | arr n =>
      rw [diff] at h
      exact liftSafe_diffElems o 0 n op h
    | null | bool _ | num _ | str _ | obj _ =>
      rw [diff.eq_def] at h
      split at h <;>
        solve
          | simp at h
          | simp_all [liftSafe]
  | null | bool _ | num _ | str _ =>
    rw [diff.eq_def] at h
    split at h <;>
      solve
        | simp at h
        | simp_all [liftSafe]

theorem setKey_getKey_self (l : List (String × Json)) (k : String) (v : Json)
    (h : getKey l k = some v) : setKey l k v = l := by
  induction l with
  | nil => simp [getKey] at h
  | cons p rest ih =>
    obtain ⟨k0, w0⟩ := p
    by_cases h0 : k0 = k
    · subst h0
      simp [getKey] at h
      simp [setKey, h]
    · simp [getKey, h0] at h
      simp [setKey, h0, ih h]

theorem setIdx_getIdx_self (xs : List Json) (i : Nat) (v : Json)
    (h : getIdx xs i = some v) : setIdx xs i v = xs := by
  induction xs generalizing i with
  | nil => simp [getIdx] at h
  | cons y ys ih =>
    cases i with
    | zero =>
      simp [getIdx] at h
      simp [setIdx, h]
    | succ n =>
      simp only [getIdx] at h
      simp [setIdx, ih n h]

theorem applyOp_pushSeg_key (fields : List (String × Json)) (k : String) (sub : Json)
    (op : POp) (hget : getKey fields k = some sub) (hsafe : liftSafe op = true) :
    applyOp (Json.obj fields) (pushSeg (Seg.key k) op) =
      (applyOp sub op).map (fun s => Json.obj (setKey fields k s)) := by
  cases op with
  | add p v =>
    cases p with
    | nil => simp [liftSafe] at hsafe
    | cons s ps =>
      simp only [pushSeg, applyOp, opAdd, hget, Option.bind_eq_bind, Option.some_bind]
      cases opAdd sub (s :: ps) v <;> simp
  | replace p v =>
    simp only [pushSeg, applyOp, opReplace, hget, Option.bind_eq_bind, Option.some_bind]
    cases opReplace sub p v <;> simp
  | remove p =>
    cases p with
    | nil => simp [liftSafe] at hsafe
    | cons s ps =>
      simp only [pushSeg, applyOp, opRemove, hget, Option.bind_eq_bind, Option.some_bind]
      cases opRemove sub (s :: ps) <;> simp

theorem applyOp_pushSeg_idx (xs : List Json) (i : Nat) (sub : Json)
    (op : POp) (hget : getIdx xs i = some sub) (hsafe : liftSafe op = true) :
    applyOp (Json.arr xs) (pushSeg (Seg.idx i) op) =
      (applyOp sub op).map (fun s => Json.arr (setIdx xs i s)) := by
  cases op with
  | add p v =>
    cases p with
    | nil => simp [liftSafe] at hsafe
    | cons s ps =>
      simp only [pushSeg, applyOp, opAdd, hget, Option.bind_eq_bind, Option.some_bind]
      cases opAdd sub (s :: ps) v <;> simp
  | replace p v =>
    simp only [pushSeg, applyOp, opReplace, hget, Option.bind_eq_bind, Option.some_bind]
    cases opReplace sub p v <;> simp
  | remove p =>
    cases p with
    | nil => simp [liftSafe] at hsafe
    | cons s ps =>
      simp only [pushSeg, applyOp, opRemove, hget, Option.bind_eq_bind, Option.some_bind]
      cases opRemove sub (s :: ps) <;> simp

theorem applyPatch_map_pushSeg_key (ops : List POp) (fields : List (String × Json))
    (k : String) (sub : Json) (hget : getKey fields k = some sub)
    (hsafe : ∀ op ∈ ops, liftSafe op = true) :
    applyPatch (ops.map (pushSeg (Seg.key k))) (Json.obj fields) =
      (applyPatch ops sub).map (fun s => Json.obj (setKey fields k s)) := by
  induction ops generalizing fields sub with
  | nil => simp [applyPatch_nil, setKey_getKey_self fields k sub hget]
  | cons op rest ih =>
    rw [List.map_cons, applyPatch_cons, applyPatch_cons]
    rw [applyOp_pushSeg_key fields k sub op hget (hsafe op (List.mem_cons_self op rest))]
    cases h1 : applyOp sub op with
    | none => simp
    | some s1 =>
      have hrest : ∀ op2 ∈ rest, liftSafe op2 = true :=
        fun op2 h2 => hsafe op2 (List.mem_cons_of_mem _ h2)
      simp only [Option.map_some', Option.some_bind]
      rw [ih (setKey fields k s1) s1 (getKey_setKey_self fields k s1) hrest]
      cases applyPatch rest s1 <;> simp [setKey_setKey]

theorem applyPatch_map_pushSeg_idx (ops : List POp) (xs : List Json)
    (i : Nat) (sub : Json) (hget : getIdx xs i = some sub)
    (hsafe : ∀ op ∈ ops, liftSafe op = true) :
    applyPatch (ops.map (pushSeg (Seg.idx i))) (Json.arr xs) =
      (applyPatch ops sub).map (fun s => Json.arr (setIdx xs i s)) := by
  induction ops generalizing xs sub with
  | nil => simp [applyPatch_nil, setIdx_getIdx_self xs i sub hget]
  | cons op rest ih =>
    rw [List.map_cons, applyPatch_cons, applyPatch_cons]
    rw [applyOp_pushSeg_idx xs i sub op hget (hsafe op (List.mem_cons_self op rest))]
    cases h1 : applyOp sub op with
    | none => simp
    | some s1 =>
      have hrest : ∀ op2 ∈ rest, liftSafe op2 = true :=
        fun op2 h2 => hsafe op2 (List.mem_cons_of_mem _ h2)
      simp only [Option.map_some', Option.some_bind]
      rw [ih (setIdx xs i s1) s1 (getIdx_setIdx_self xs i sub s1 hget) hrest]
      cases applyPatch rest s1 <;> simp [setIdx_setIdx]

theorem diffFields_applyPatch (n : List (String × Json)) :
    ∀ (l acc : List (String × Json)),
    nodupKeys l = true →
    (∀ p ∈ l, getKey acc p.1 = none) →
    (∀ k v, (k, v) ∈ l → ∀ w, getKey n k = some w →
        applyPatch (diff v w) v = some (patchResult v w)) →
    applyPatch (diffFields l n) (Json.obj (acc ++ l)) =
      some (Json.obj (acc ++ patchFields l n)) := by
  intro l
  induction l with
  | nil =>
    intro acc _ _ _
    simp [diffFields, patchFields, applyPatch_nil]
  | cons p rest ih =>
    obtain ⟨k, v⟩ := p
    intro acc hnd hacc hIH
    simp only [nodupKeys, Bool.and_eq_true, Bool.not_eq_true'] at hnd
    have hk_acc : getKey acc k = none := hacc (k, v) (List.mem_cons_self _ _)
    have hfull : getKey (acc ++ (k, v) :: rest) k = some v := by
      rw [getKey_append_not _ _ _ hk_acc]
      simp [getKey]
    have hrest_ne : ∀ p2 ∈ rest, p2.1 ≠ k := by
      intro p2 hp2 he
      have := hasKey_of_mem rest p2 hp2
      rw [he] at this
      simp [this] at hnd
    rw [diffFields, applyPatch_append]
    cases hg : getKey n k with
    | none =>
      have h1 : applyPatch [POp.remove [Seg.key k]] (Json.obj (acc ++ (k, v) :: rest)) =
          some (Json.obj (acc ++ rest)) := by
        rw [applyPatch_cons]
        have : hasKey (acc ++ (k, v) :: rest) k = true := by simp [hasKey, hfull]
        simp only [applyOp, opRemove, this, if_true]
        rw [removeKey_append_not _ _ _ hk_acc]
        simp [removeKey, applyPatch_nil]
      rw [h1]
      simp only [Option.some_bind]
      rw [ih acc hnd.2 (fun p2 h2 => hacc p2 (List.mem_cons_of_mem _ h2))
        (fun k2 v2 h2 w2 hw2 => hIH k2 v2 (List.mem_cons_of_mem _ h2) w2 hw2)]
      rw [patchFields, hg]
    | some w =>
      have hsafe := liftSafe_diff v w
      rw [applyPatch_map_pushSeg_key (diff v w) _ k v hfull hsafe]
      rw [hIH k v (List.mem_cons_self _ _) w hg]
      simp only [Option.map_some', Option.some_bind]
      rw [setKey_append_not _ _ _ _ hk_acc]
      simp only [setKey, if_true]
      have hacc2 : ∀ p2 ∈ rest, getKey (acc ++ [(k, patchResult v w)]) p2.1 = none := by
        intro p2 h2
        rw [getKey_append_not _ _ _ (hacc p2 (List.mem_cons_of_mem _ h2))]
        have hne2 : ¬(k = p2.1) := fun hh => hrest_ne p2 h2 hh.symm
        simp [getKey, hne2]
      have := ih (acc ++ [(k, patchResult v w)]) hnd.2 hacc2
        (fun k2 v2 h2 w2 hw2 => hIH k2 v2 (List.mem_cons_of_mem _ h2) w2 hw2)
      rw [List.append_assoc] at this
      simp only [List.singleton_append] at this
      rw [this]
      rw [patchFields, hg]
      simp

theorem addsList_applyPatch :
    ∀ (pairs cur : List (String × Json)),
    nodupKeys pairs = true →
    (∀ p ∈ pairs, getKey cur p.1 = none) →
    applyPatch (pairs.map (fun p => POp.add [Seg.key p.1] p.2)) (Json.obj cur) =
      some (Json.obj (cur ++ pairs)) := by
  intro pairs
  induction pairs with
  | nil =>
    intro cur _ _
    simp [applyPatch_nil]
  | cons p rest ih =>
    obtain ⟨k, w⟩ := p
    intro cur hnd hcur
    simp only [nodupKeys, Bool.and_eq_true, Bool.not_eq_true'] at hnd
    have hk : getKey cur k = none := hcur (k, w) (List.mem_cons_self _ _)
    rw [List.map_cons, applyPatch_cons]
    simp only [applyOp, opAdd]
    rw [setKey_not_has cur k w hk]
    simp only [Option.some_bind]
    have hcur2 : ∀ p2 ∈ rest, getKey (cur ++ [(k, w)]) p2.1 = none := by
      intro p2 h2
      rw [getKey_append_not _ _ _ (hcur p2 (List.mem_cons_of_mem _ h2))]
      have hne : p2.1 ≠ k := by
        intro he
        have := hasKey_of_mem rest p2 h2
        rw [he] at this
        simp [this] at hnd
      have hne2 : ¬(k = p2.1) := fun hh => hne hh.symm
      simp [getKey, hne2]
    have := ih (cur ++ [(k, w)]) hnd.2 hcur2
    rw [List.append_assoc] at this
    simp only [List.singleton_append] at this
    exact this

theorem addsFrom_applyPatch :
    ∀ (ys pre : List Json),
    applyPatch (addsFrom pre.length ys) (Json.arr pre) = some (Json.arr (pre ++ ys)) := by
  intro ys
  induction ys with
  | nil =>
    intro pre
    simp [addsFrom, applyPatch_nil]
  | cons y ys ih =>
    intro pre
    rw [addsFrom, applyPatch_cons]
    simp only [applyOp, opAdd, le_refl, if_true]
    rw [insertAt_length]
    simp only [Option.some_bind]
    have := ih (pre ++ [y])
    rw [List.length_append] at this
    simp only [List.length_singleton] at this
    rw [this, List.append_assoc]
    simp

theorem diffElems_applyPatch :
    ∀ (xs ys pre : List Json),
    (∀ x ∈ xs, ∀ y ∈ ys, applyPatch (diff x y) x = some (patchResult x y)) →
    applyPatch (diffElems pre.length xs ys) (Json.arr (pre ++ xs)) =
      some (Json.arr (pre ++ patchElems xs ys)) := by
  intro xs
  induction xs with
  | nil =>
    intro ys pre _
    rw [diffElems]
    simp only [List.append_nil]
    rw [addsFrom_applyPatch ys pre]
    rw [patchElems]
  | cons x xs ih =>
    intro ys pre hIH
    cases ys with
    | nil =>
      rw [diffElems, applyPatch_cons]
      have hlt : pre.length < (pre ++ x :: xs).length := by
        rw [List.length_append]
        simp
      simp only [applyOp, opRemove, hlt, if_true]
      rw [eraseAt_append_length]
      simp only [Option.some_bind]
      rw [ih [] pre (by intro x2 _ y2 hy2; cases hy2)]
      rw [patchElems]
      cases xs with
      | nil => rw [patchElems]
      | cons x2 xs2 => rw [patchElems]
    | cons y ys =>
      rw [diffElems, applyPatch_append]
      have hget : getIdx (pre ++ x :: xs) pre.length = some x := getIdx_append_length pre x xs
      rw [applyPatch_map_pushSeg_idx (diff x y) _ pre.length x hget (liftSafe_diff x y)]
      rw [hIH x (List.mem_cons_self _ _) y (List.mem_cons_self _ _)]
      simp only [Option.map_some', Option.some_bind]
      rw [setIdx_append_length]
      have := ih ys (pre ++ [patchResult x y])
        (fun x2 h2 y2 hy2 => hIH x2 (List.mem_cons_of_mem _ h2) y2 (List.mem_cons_of_mem _ hy2))
      rw [List.length_append] at this
      simp only [List.length_singleton] at this
      rw [List.append_assoc] at this
      simp only [List.singleton_append] at this
      rw [this]
      rw [patchElems]
      simp

theorem hasKey_patchFields (o n : List (String × Json)) (k : String)
    (h : hasKey (patchFields o n) k = true) : hasKey o k = true := by
  induction o with
  | nil => simp [patchFields, hasKey, getKey] at h
  | cons p rest ih =>
    obtain ⟨k0, v0⟩ := p
    rw [patchFields] at h
    cases hg : getKey n k0 with
    | none =>
      rw [hg] at h
      rw [hasKey_cons]
      by_cases h0 : k0 = k
      · simp [h0]
      · simp [h0]
        exact ih h
    | some w =>
      rw [hg] at h
      rw [hasKey_cons] at h ⊢
      by_cases h0 : k0 = k
      · simp [h0]
      · simp [h0] at h ⊢
        exact ih h

/-- The diff computed between two well-formed documents, applied to the
first document, succeeds and produces exactly the canonical patch result. -/
theorem applyPatch_diff (o n : Json) (hwo : o.wf = true) (hwn : n.wf = true) :
    applyPatch (diff o n) o = some (patchResult o n) := by
  cases o with
  | obj of =>
    cases n with
    | obj nf =>
      rw [wf_obj, Bool.and_eq_true] at hwo hwn
      rw [diff, patchResult, applyPatch_append]
      have hIH : ∀ k v, (k, v) ∈ of → ∀ w, getKey nf k = some w →
          applyPatch (diff v w) v = some (patchResult v w) := by
        intro k v hm w hw
        exact applyPatch_diff v w (wf_val_of_mem of k v hwo.2 hm)
          (wf_val_of_mem nf k w hwn.2 (mem_of_getKey nf k w hw))
      have h1 := diffFields_applyPatch nf of [] hwo.1 (by intro p _; simp [getKey]) hIH
      simp only [List.nil_append] at h1
      rw [h1]
      simp only [Option.some_bind]
      have hnd2 : nodupKeys (nf.filter (fun p => !(hasKey of p.1))) = true :=
        nodupKeys_filter nf _ hwn.1
      have hnone : ∀ p ∈ nf.filter (fun p => !(hasKey of p.1)),
          getKey (patchFields of nf) p.1 = none := by
        intro p hp
        have h2 := (List.mem_filter.mp hp).2
        simp only [Bool.not_eq_true'] at h2
        by_cases hh : getKey (patchFields of nf) p.1 = none
        · exact hh
        · exfalso
          have : hasKey (patchFields of nf) p.1 = true := by
            simp [hasKey, Option.isSome_iff_ne_none, hh]
          have := hasKey_patchFields of nf p.1 this
          rw [this] at h2
          cases h2
      exact addsList_applyPatch _ _ hnd2 hnone
    | null | bool _ | num _ | str _ | arr _ =>
      rw [diff.eq_def, patchResult.eq_def]
      split
      all_goals solve
        | simp_all
        | (split
           all_goals simp_all [applyPatch_nil, applyPatch_cons, applyOp, opReplace])
  | arr oe =>
    cases n with
    | arr ne2 =>
      rw [wf_arr] at hwo hwn
      rw [diff, patchResult]
      have hIH : ∀ x ∈ oe, ∀ y ∈ ne2, applyPatch (diff x y) x = some (patchResult x y) := by
        intro x hm y hy
        exact applyPatch_diff x y (wf_elem_of_mem oe x hwo hm) (wf_elem_of_mem ne2 y hwn hy)
      have := diffElems_applyPatch oe ne2 [] hIH
      simpa using this
    | null | bool _ | num _ | str _ | obj _ =>
      rw [diff.eq_def, patchResult.eq_def]
      split
      all_goals solve
        | simp_all
        | (split
           all_goals simp_all [applyPatch_nil, applyPatch_cons, applyOp, opReplace])
  | null | bool _ | num _ | str _ =>
    rw [diff.eq_def, patchResult.eq_def]
    split
    all_goals solve
      | simp_all
      | (split
         all_goals simp_all [applyPatch_nil, applyPatch_cons, applyOp, opReplace])
  termination_by sizeOf o
  decreasing_by
    all_goals simp_wf
    all_goals subst_vars
    · exact sizeOf_elem_lt_arr _ _ hm
    · exact sizeOf_val_lt_obj _ _ _ hm

theorem deqFields_sub (fields : List (String × Json)) (hnd : nodupKeys fields = true)
    (hrefl : ∀ p ∈ fields, deq p.2 p.2 = true) :
    ∀ l, (∀ p ∈ l, p ∈ fields) → deqFields l fields = true := by
  intro l
  induction l with
  | nil => intro _; rw [deqFields]
  | cons p rest ih =>
    obtain ⟨k, v⟩ := p
    intro hsub
    have hm : (k, v) ∈ fields := hsub (k, v) (List.mem_cons_self _ _)
    rw [deqFields, Bool.and_eq_true]
    constructor
    · rw [getKey_eq_some_of_mem fields k v hnd hm]
      exact hrefl (k, v) hm
    · exact ih (fun p2 h2 => hsub p2 (List.mem_cons_of_mem _ h2))

theorem deqElems_self (xs : List Json) (hrefl : ∀ x ∈ xs, deq x x = true) :
    deqElems xs xs = true := by
  induction xs with
  | nil => rw [deqElems]
  | cons x rest ih =>
    rw [deqElems, Bool.and_eq_true]
    exact ⟨hrefl x (List.mem_cons_self _ _),
      ih (fun x2 h2 => hrefl x2 (List.mem_cons_of_mem _ h2))⟩

/-- Deep equality is reflexive on well-formed documents. -/
theorem deq_refl (j : Json) (hw : j.wf = true) : deq j j = true := by
  cases j with
  | obj fields =>
    rw [wf_obj, Bool.and_eq_true] at hw
    rw [deq, Bool.and_eq_true]
    constructor
    · refine deqFields_sub fields hw.1 ?_ fields (fun p hp => hp)
      intro p hp
      obtain ⟨k, v⟩ := p
      exact deq_refl v (wf_val_of_mem fields k v hw.2 hp)
    · rw [List.all_eq_true]
      intro p hp
      exact hasKey_of_mem fields p hp
  | arr xs =>
    rw [wf_arr] at hw
    rw [deq]
    refine deqElems_self xs ?_
    intro x hx
    exact deq_refl x (wf_elem_of_mem xs x hw hx)
  | null => rw [deq]
  | bool b => rw [deq]; simp
  | num a => rw [deq]; simp
  | str a => rw [deq]; simp
  termination_by sizeOf j
  decreasing_by
    all_goals simp_wf
    all_goals subst_vars
    all_goals first
      | exact sizeOf_val_lt_obj _ _ _ (by assumption)
      | exact sizeOf_elem_lt_arr _ _ (by assumption)

theorem deqFields_append (l1 l2 b : List (String × Json)) :
    deqFields (l1 ++ l2) b = (deqFields l1 b && deqFields l2 b) := by
  induction l1 with
  | nil => rw [List.nil_append, deqFields, Bool.true_and]
  | cons p rest ih =>
    obtain ⟨k, v⟩ := p
    rw [List.cons_append, deqFields, deqFields, ih, Bool.and_assoc]

theorem patchFields_deqFields (o n : List (String × Json))
    (hIH : ∀ k v, (k, v) ∈ o → ∀ w, getKey n k = some w →
      deq (patchResult v w) w = true) :
    deqFields (patchFields o n) n = true := by
  induction o with
  | nil => rw [patchFields, deqFields]
  | cons p rest ih =>
    obtain ⟨k, v⟩ := p
    have hrest := fun k2 v2 h2 w2 hw2 => hIH k2 v2 (List.mem_cons_of_mem _ h2) w2 hw2
    rw [patchFields]
    cases hg : getKey n k with
    | none => exact ih hrest
    | some w =>
      rw [deqFields, Bool.and_eq_true, hg]
      exact ⟨hIH k v (List.mem_cons_self _ _) w hg, ih hrest⟩

theorem hasKey_patchFields_of (o n : List (String × Json)) (k : String)
    (h1 : hasKey o k = true) (h2 : hasKey n k = true) :
    hasKey (patchFields o n) k = true := by
  induction o with
  | nil => simp [hasKey, getKey] at h1
  | cons p rest ih =>
    obtain ⟨k0, v0⟩ := p
    rw [patchFields]
    by_cases h0 : k0 = k
    · subst h0
      rw [hasKey] at h2
      obtain ⟨w, hw⟩ := Option.isSome_iff_exists.mp h2
      rw [hw, hasKey_cons]
      simp
    · rw [hasKey_cons] at h1
      simp only [Bool.or_eq_true, beq_iff_eq] at h1
      rcases h1 with hbad | h1
      · exact absurd hbad h0
      cases hg : getKey n k0 with
      | none => exact ih h1
      | some w =>
        rw [hasKey_cons]
        simp only [Bool.or_eq_true, beq_iff_eq]
        exact Or.inr (ih h1)

theorem patchElems_deqElems (o n : List Json)
    (hIH : ∀ x ∈ o, ∀ y ∈ n, deq (patchResult x y) y = true)
    (hrefl : ∀ y ∈ n, deq y y = true) :
    deqElems (patchElems o n) n = true := by
  induction o generalizing n with
  | nil =>
    rw [patchElems]
    exact deqElems_self n hrefl
  | cons x xs ih =>
    cases n with
    | nil =>
      rw [patchElems, deqElems]
    | cons y ys =>
      rw [patchElems, deqElems, Bool.and_eq_true]
      refine ⟨hIH x (List.mem_cons_self _ _) y (List.mem_cons_self _ _), ?_⟩
      exact ih ys
        (fun x2 h2 y2 hy2 => hIH x2 (List.mem_cons_of_mem _ h2) y2 (List.mem_cons_of_mem _ hy2))
        (fun y2 hy2 => hrefl y2 (List.mem_cons_of_mem _ hy2))

/-- The canonical patch result deep-equals the target document. -/
theorem deq_patchResult (o n : Json) (hwo : o.wf = true) (hwn : n.wf = true) :
    deq (patchResult o n) n = true := by
  cases o with
  | obj of =>
    cases n with
    | obj nf =>
      rw [wf_obj, Bool.and_eq_true] at hwo hwn
      rw [patchResult, deq, Bool.and_eq_true]
      constructor
      · rw [deqFields_append, Bool.and_eq_true]
        constructor
        · refine patchFields_deqFields of nf ?_
          intro k v hm w hw
          exact deq_patchResult v w (wf_val_of_mem of k v hwo.2 hm)
            (wf_val_of_mem nf k w hwn.2 (mem_of_getKey nf k w hw))
        · refine deqFields_sub nf hwn.1
            (fun p hp => deq_refl p.2 (wf_val_of_mem nf p.1 p.2 hwn.2 (by
              obtain ⟨k, v⟩ := p
              exact hp)))
            _ (fun p hp => (List.mem_filter.mp hp).1)
      · rw [List.all_eq_true]
        intro p hp
        rw [hasKey_append, Bool.or_eq_true]
        by_cases hof : hasKey of p.1 = true
        · exact Or.inl (hasKey_patchFields_of of nf p.1 hof (hasKey_of_mem nf p hp))
        · refine Or.inr (hasKey_of_mem _ p (List.mem_filter.mpr ⟨hp, ?_⟩))
          simp only [Bool.not_eq_true] at hof
          simp [hof]
    | null | bool _ | num _ | str _ | arr _ =>
      rw [patchResult.eq_def]
      split
      all_goals solve
        | simp_all
        | (subst_vars; exact deq_refl _ hwn)
  | arr oe =>
    cases n with
    | arr ne2 =>
      rw [wf_arr] at hwo hwn
      rw [patchResult, deq]
      refine patchElems_deqElems oe ne2 ?_ ?_
      · intro x hx y hy
        exact deq_patchResult x y (wf_elem_of_mem oe x hwo hx) (wf_elem_of_mem ne2 y hwn hy)
      · intro y hy
        exact deq_refl y (wf_elem_of_mem ne2 y hwn hy)
    | null | bool _ | num _ | str _ | obj _ =>
      rw [patchResult.eq_def]
      split
      all_goals solve
        | simp_all
        | (subst_vars; exact deq_refl _ hwn)
  | null | bool _ | num _ | str _ =>
    rw [patchResult.eq_def]
    split
    all_goals solve
      | simp_all
      | (subst_vars; exact deq_refl _ hwn)
  termination_by sizeOf o
  decreasing_by
    all_goals simp_wf
    all_goals subst_vars
    · exact sizeOf_elem_lt_arr _ _ hx
    · exact sizeOf_val_lt_obj _ _ _ hm

/-! Well-formedness of leaves and preservation lemmas. -/

theorem wf_num (n : Int) : (Json.num n).wf = true := by rw [Json.wf.eq_def]

theorem wf_str (s : String) : (Json.str s).wf = true := by rw [Json.wf.eq_def]

theorem wf_bool (b : Bool) : (Json.bool b).wf = true := by rw [Json.wf.eq_def]

theorem wf_null : (Json.null).wf = true := by rw [Json.wf.eq_def]

theorem hasKey_setKey_ne (l : List (String × Json)) (k k2 : String) (v : Json)
    (h : k2 ≠ k) : hasKey (setKey l k v) k2 = hasKey l k2 := by
  rw [hasKey, hasKey, getKey_setKey_ne l k k2 v h]

theorem nodupKeys_setKey (l : List (String × Json)) (k : String) (v : Json)
    (h : nodupKeys l = true) : nodupKeys (setKey l k v) = true := by
  induction l with
  | nil => simp [setKey, nodupKeys, hasKey, getKey]
  | cons p rest ih =>
    obtain ⟨k0, w0⟩ := p
    simp only [nodupKeys, Bool.and_eq_true, Bool.not_eq_true'] at h
    by_cases h0 : k0 = k
    · subst h0
      simp only [setKey, if_true, nodupKeys, Bool.and_eq_true, Bool.not_eq_true']
      exact ⟨h.1, h.2⟩
    · simp only [setKey, h0, if_false, nodupKeys, Bool.and_eq_true, Bool.not_eq_true']
      constructor
      · rw [hasKey_setKey_ne rest k k0 v h0]
        exact h.1
      · exact ih h.2

theorem wfFields_setKey (l : List (String × Json)) (k : String) (v : Json)
    (hf : wfFields l = true) (hv : v.wf = true) : wfFields (setKey l k v) = true := by
  induction l with
  | nil => simp [setKey, wfFields, hv]
  | cons p rest ih =>
    obtain ⟨k0, w0⟩ := p
    simp only [wfFields, Bool.and_eq_true] at hf
    by_cases h0 : k0 = k
    · simp only [setKey, h0, if_true, wfFields, Bool.and_eq_true]
      exact ⟨hv, hf.2⟩
    · simp only [setKey, h0, if_false, wfFields, Bool.and_eq_true]
      exact ⟨hf.1, ih hf.2⟩

theorem wf_setKey (l : List (String × Json)) (k : String) (v : Json)
    (hl : (Json.obj l).wf = true) (hv : v.wf = true) :
    (Json.obj (setKey l k v)).wf = true := by
  rw [wf_obj, Bool.and_eq_true] at hl ⊢
  exact ⟨nodupKeys_setKey l k v hl.1, wfFields_setKey l k v hl.2 hv⟩

theorem wf_setPathViv (keys : List String) (st : List (String × Json)) (v : Json)
    (hst : (Json.obj st).wf = true) (hv : v.wf = true) :
    (Json.obj (setPathViv st keys v)).wf = true := by
  induction keys generalizing st with
  | nil => simpa [setPathViv] using hst
  | cons k rest ih =>
    cases rest with
    | nil => exact wf_setKey st k v hst hv
    | cons k2 ks =>
      rw [setPathViv]
      refine wf_setKey st k _ hst ?_
      cases hg : getKey st k with
      | none =>
        simp only [hg]
        exact ih [] (by rw [wf_obj]; rfl)
      | some w =>
        cases w with
        | obj o =>
          simp only [hg]
          refine ih o ?_
          rw [wf_obj, Bool.and_eq_true] at hst
          exact wf_val_of_mem st k (Json.obj o) hst.2 (mem_of_getKey st k _ hg)
        | null | bool _ | num _ | str _ | arr _ =>
          simp only [hg]
          exact ih [] (by rw [wf_obj]; rfl)

/-- Reading back the path just written by the auto-vivifying mutation walk
yields the written value, for every document and every non-empty path. -/
theorem getJsonPath_setPathViv (keys : List String) (st : List (String × Json)) (v : Json)
    (h : keys ≠ []) :
    getJsonPath (Json.obj (setPathViv st keys v)) keys = some v := by
  induction keys generalizing st with
  | nil => cases h rfl
  | cons k rest ih =>
    cases rest with
    | nil =>
      rw [setPathViv, getJsonPath, getKey_setKey_self]
      simp [getJsonPath]
    | cons k2 ks =>
      rw [setPathViv, getJsonPath, getKey_setKey_self]
      simp only [Option.some_bind, Option.bind_some]
      exact ih _ (by simp)

/-! Validator lemmas. -/

theorem wf_validateSensor (j j2 : Json) (h : validateSensor j = some j2) : j2.wf = true := by
  rw [validateSensor.eq_def] at h
  split at h
  all_goals try exact Option.noConfusion h
  split at h
  all_goals try exact Option.noConfusion h
  split at h
  all_goals try exact Option.noConfusion h
  injection h with h2
  subst h2
  rw [wf_obj]
  simp [nodupKeys, wfFields, hasKey, getKey, wf_num, wf_str]

theorem hasKey_filter_self (l : List (String × Json)) (k : String) :
    hasKey (l.filter (fun p => p.1 ≠ k)) k = false := by
  induction l with
  | nil => simp [hasKey, getKey]
  | cons p rest ih =>
    obtain ⟨k0, v0⟩ := p
    rw [List.filter_cons]
    split
    · rw [hasKey_cons]
      by_cases h0 : k0 = k
      · rename_i hcond
        simp [h0] at hcond
      · simpa [h0] using ih
    · exact ih

theorem wf_validateEquipment (j j2 : Json) (hw : j.wf = true)
    (h : validateEquipment j = some j2) : j2.wf = true := by
  rw [validateEquipment.eq_def] at h
  split at h
  all_goals try exact Option.noConfusion h
  split at h
  all_goals try exact Option.noConfusion h
  injection h with h2
  subst h2
  rename_i fields hmatch s hg
  rw [wf_obj] at hw ⊢
  simp only [Bool.and_eq_true] at hw
  simp only [nodupKeys, Bool.and_eq_true, Bool.not_eq_true', wfFields]
  refine ⟨⟨hasKey_filter_self fields "status", nodupKeys_filter fields _ hw.1⟩, ?_, ?_⟩
  · exact wf_str s
  · exact wfFields_filter fields _ hw.2

theorem wf_validateAlert (j j2 : Json) (h : validateAlert j = some j2) : j2.wf = true := by
  rw [validateAlert.eq_def] at h
  split at h
  all_goals try exact Option.noConfusion h
  split at h
  all_goals try exact Option.noConfusion h
  split at h
  all_goals try exact Option.noConfusion h
  injection h with h2
  subst h2
  rw [wf_obj]
  simp [nodupKeys, wfFields, hasKey, getKey, wf_str]

theorem validateVals_keys (f : Json → Option Json) :
    ∀ (l l2 : List (String × Json)), validateVals f l = some l2 →
    l2.map Prod.fst = l.map Prod.fst := by
  intro l
  induction l with
  | nil =>
    intro l2 h
    rw [validateVals] at h
    injection h with h2
    subst h2
    rfl
  | cons p rest ih =>
    obtain ⟨k, v⟩ := p
    intro l2 h
    rw [validateVals] at h
    split at h
    · injection h with h2
      subst h2
      rename_i v2 rest2 hv hrest
      simp only [List.map_cons]
      rw [ih rest2 hrest]
    · cases h

theorem validateVals_wf (f : Json → Option Json) :
    ∀ (l l2 : List (String × Json)),
    (∀ p ∈ l, ∀ v2, f p.2 = some v2 → v2.wf = true) →
    validateVals f l = some l2 → wfFields l2 = true := by
  intro l
  induction l with
  | nil =>
    intro l2 _ h
    rw [validateVals] at h
    injection h with h2
    subst h2
    rw [wfFields]
  | cons p rest ih =>
    obtain ⟨k, v⟩ := p
    intro l2 hf h
    rw [validateVals] at h
    split at h
    · injection h with h2
      subst h2
      rename_i v2 rest2 hv hrest
      rw [wfFields, Bool.and_eq_true]
      constructor
      · exact hf (k, v) (List.mem_cons_self _ _) v2 hv
      · exact ih rest2 (fun p2 hp2 => hf p2 (List.mem_cons_of_mem _ hp2)) hrest
    · cases h

theorem validateAlerts_wf :
    ∀ (l l2 : List Json), validateAlerts l = some l2 → wfElems l2 = true := by
  intro l
  induction l with
  | nil =>
    intro l2 h
    rw [validateAlerts] at h
    injection h with h2
    subst h2
    rw [wfElems]
  | cons x rest ih =>
    intro l2 h
    rw [validateAlerts] at h
    split at h
    · injection h with h2
      subst h2
      rename_i x2 rest2 hx hrest
      rw [wfElems, Bool.and_eq_true]
      exact ⟨wf_validateAlert x x2 hx, ih rest2 hrest⟩
    · cases h

theorem hasKey_eq_of_keys_eq :
    ∀ (l1 l2 : List (String × Json)) (k : String),
    l1.map Prod.fst = l2.map Prod.fst → hasKey l1 k = hasKey l2 k := by
  intro l1
  induction l1 with
  | nil =>
    intro l2 k h
    cases l2 with
    | nil => rfl
    | cons q rest2 => simp at h
  | cons p rest ih =>
    obtain ⟨k0, v0⟩ := p
    intro l2 k h
    cases l2 with
    | nil => simp at h
    | cons q rest2 =>
      obtain ⟨k1, v1⟩ := q
      simp only [List.map_cons, List.cons.injEq] at h
      rw [hasKey_cons, hasKey_cons, h.1, ih rest2 k h.2]

theorem nodupKeys_of_keys_eq :
    ∀ (l1 l2 : List (String × Json)),
    l1.map Prod.fst = l2.map Prod.fst → nodupKeys l1 = true → nodupKeys l2 = true := by
  intro l1
  induction l1 with
  | nil =>
    intro l2 h _
    cases l2 with
    | nil => rw [nodupKeys]
    | cons q rest2 => simp at h
  | cons p rest ih =>
    obtain ⟨k0, v0⟩ := p
    intro l2 h hnd
    cases l2 with
    | nil => simp at h
    | cons q rest2 =>
      obtain ⟨k1, v1⟩ := q
      simp only [List.map_cons, List.cons.injEq] at h
      simp only [nodupKeys, Bool.and_eq_true, Bool.not_eq_true'] at hnd ⊢
      constructor
      · rw [← hasKey_eq_of_keys_eq rest rest2 k1 h.2, ← h.1]
        exact hnd.1
      · exact ih rest2 h.2 hnd.2

theorem wf_model_dump_core (ss es : List (String × Json)) (as2 : List Json) (ver : Int)
    (h1 : nodupKeys ss = true) (h2 : wfFields ss = true) (h3 : nodupKeys es = true)
    (h4 : wfFields es = true) (h5 : wfElems as2 = true) :
    (Json.obj (model_dump ⟨ss, es, as2, ver⟩)).wf = true := by
  rw [model_dump, wf_obj]
  simp only [nodupKeys, wfFields, hasKey, getKey]
  simp [wf_obj, wf_arr, wf_num, h1, h2, h3, h4, h5]

/-- Validation of a well-formed raw document yields a model whose dump is
well-formed. -/
theorem wf_model_dump (st : List (String × Json)) (m : LabStateModel)
    (hw : (Json.obj st).wf = true) (h : model_validate st = some m) :
    (Json.obj (model_dump m)).wf = true := by
  rw [wf_obj, Bool.and_eq_true] at hw
  rw [model_validate.eq_def] at h
  split at h
  all_goals try exact Option.noConfusion h
  rename_i sRaw eRaw aRaw hs he ha
  split at h
  all_goals try exact Option.noConfusion h
  rename_i ss es as2 hss hes has
  have hsWf : (Json.obj sRaw).wf = true :=
    wf_val_of_mem st "sensors" _ hw.2 (mem_of_getKey st _ _ hs)
  have heWf : (Json.obj eRaw).wf = true :=
    wf_val_of_mem st "equipment" _ hw.2 (mem_of_getKey st _ _ he)
  rw [wf_obj, Bool.and_eq_true] at hsWf heWf
  have h1 : nodupKeys ss = true :=
    nodupKeys_of_keys_eq sRaw ss (validateVals_keys _ sRaw ss hss).symm hsWf.1
  have h2 : wfFields ss = true :=
    validateVals_wf _ sRaw ss (fun p _ v2 hv2 => wf_validateSensor p.2 v2 hv2) hss
  have h3 : nodupKeys es = true :=
    nodupKeys_of_keys_eq eRaw es (validateVals_keys _ eRaw es hes).symm heWf.1
  have h4 : wfFields es = true := by
    refine validateVals_wf _ eRaw es ?_ hes
    intro p hp v2 hv2
    obtain ⟨k0, v0⟩ := p
    exact wf_validateEquipment v0 v2 (wf_val_of_mem eRaw k0 v0 heWf.2 hp) hv2
  have h5 : wfElems as2 = true := validateAlerts_wf aRaw as2 has
  split at h
  all_goals try exact Option.noConfusion h
  · injection h with h2x
    subst h2x
    exact wf_model_dump_core ss es as2 1 h1 h2 h3 h4 h5
  · injection h with h2x
    subst h2x
    exact wf_model_dump_core ss es as2 _ h1 h2 h3 h4 h5

theorem getKey_model_dump_version (m : LabStateModel) :
    getKey (model_dump m) "version" = some (Json.num m.version) := by
  simp [model_dump, getKey]

theorem model_validate_version (st : List (String × Json)) (m : LabStateModel) (w : Int)
    (h : model_validate st = some m) (hv : getKey st "version" = some (Json.num w)) :
    m.version = w := by
  rw [model_validate.eq_def] at h
  split at h
  all_goals try exact Option.noConfusion h
  split at h
  all_goals try exact Option.noConfusion h
  split at h
  all_goals try exact Option.noConfusion h
  · rename_i hnone
    rw [hv] at hnone
    exact Option.noConfusion hnone
  · rename_i n hn
    rw [hv] at hn
    injection hn with hn2
    injection hn2 with hn3
    injection h with h2
    subst h2
    exact hn3.symm

theorem getKey_setPathViv_ne (st : List (String × Json)) (k k2 : String)
    (ks : List String) (v : Json) (h : k2 ≠ k) :
    getKey (setPathViv st (k :: ks) v) k2 = getKey st k2 := by
  cases ks with
  | nil => rw [setPathViv, getKey_setKey_ne st k k2 v h]
  | cons k3 ks2 => rw [setPathViv, getKey_setKey_ne st k k2 _ h]

theorem getKey_setPathViv_head (st : List (String × Json)) (k k2 : String)
    (ks : List String) (v : Json) :
    ∃ o, getKey (setPathViv st (k :: k2 :: ks) v) k = some (Json.obj o) := by
  rw [setPathViv, getKey_setKey_self]
  exact ⟨_, rfl⟩

/-- Inversion of a successful apply_value call into its intermediate
states. -/
theorem apply_value_ok (st : List (String × Json)) (p : String) (v : Json)
    (st2 : List (String × Json)) (pr : List POp) (ver : Int)
    (h : apply_value st p v = (st2, .ok (pr, ver))) :
    ∃ k ks n m, parsePath p = k :: ks ∧
      pyInt ((getKey (setPathViv st (k :: ks) v) "version").getD (Json.num 0)) = some n ∧
      model_validate (setKey (setPathViv st (k :: ks) v) "version" (Json.num (n + 1))) =
        some m ∧
      st2 = model_dump m ∧ ver = m.version ∧
      pr = diff (Json.obj st) (Json.obj (model_dump m)) := by
  rw [apply_value.eq_def] at h
  split at h
  · exact absurd (congrArg Prod.snd h) (by simp)
  · rename_i k ks hp
    simp only at h
    split at h
    · exact absurd (congrArg Prod.snd h) (by simp)
    · rename_i n hn
      split at h
      · exact absurd (congrArg Prod.snd h) (by simp)
      · rename_i m hm
        refine ⟨k, ks, n, m, hp, hn, hm, ?_, ?_, ?_⟩
        · exact (congrArg Prod.fst h).symm
        · have := congrArg Prod.snd h
          simp only at this
          injection this with h2
          injection h2 with h3 h4
          exact h4.symm
        · have := congrArg Prod.snd h
          simp only at this
          injection this with h2
          injection h2 with h3 h4
          exact h3.symm

theorem pyInt_obj (l : List (String × Json)) : pyInt (Json.obj l) = none := by
  rw [pyInt.eq_def]

theorem pyInt_num (n : Int) : pyInt (Json.num n) = some n := by
  rw [pyInt.eq_def]

/-- A successful apply_value call on a document at an integer version,
whose path does not target the version field itself, returns exactly the
incremented version and leaves the stored document at that version. -/
theorem apply_value_version (st : List (String × Json)) (p : String) (v : Json)
    (st2 : List (String × Json)) (pr : List POp) (ver : Int) (V : Int)
    (hV : getKey st "version" = some (Json.num V))
    (hne : parsePath p ≠ ["version"])
    (h : apply_value st p v = (st2, .ok (pr, ver))) :
    ver = V + 1 ∧ getKey st2 "version" = some (Json.num (V + 1)) := by
  obtain ⟨k, ks, n, m, hp, hn, hm, hst2, hver, hpr⟩ := apply_value_ok st p v st2 pr ver h
  by_cases hk : k = "version"
  · subst hk
    cases ks with
    | nil => exact absurd hp hne
    | cons k2 ks2 =>
      obtain ⟨o, ho⟩ := getKey_setPathViv_head st "version" k2 ks2 v
      rw [ho] at hn
      simp only [Option.getD_some] at hn
      rw [pyInt_obj] at hn
      exact Option.noConfusion hn
  · have hpres := getKey_setPathViv_ne st k "version" ks v (fun hh => hk hh.symm)
    rw [hpres, hV] at hn
    simp only [Option.getD_some] at hn
    rw [pyInt_num] at hn
    injection hn with hn2
    subst hn2
    have hv3 : getKey (setKey (setPathViv st (k :: ks) v) "version" (Json.num (V + 1)))
        "version" = some (Json.num (V + 1)) := getKey_setKey_self _ _ _
    have hmv : m.version = V + 1 := model_validate_version _ m (V + 1) hm hv3
    constructor
    · rw [hver, hmv]
    · rw [hst2, getKey_model_dump_version, hmv]

/-- A validation failure in apply_value leaves the leaf-mutated,
version-incremented document in the store and reports the error. -/
theorem apply_value_validation_error (st : List (String × Json)) (p : String)
    (v : Json) (k : String) (ks : List String) (n : Int)
    (hp : parsePath p = k :: ks)
    (hn : pyInt ((getKey (setPathViv st (k :: ks) v) "version").getD (Json.num 0)) =
      some n)
    (hm : model_validate (setKey (setPathViv st (k :: ks) v) "version"
      (Json.num (n + 1))) = none) :
    apply_value st p v =
      (setKey (setPathViv st (k :: ks) v) "version" (Json.num (n + 1)),
        .error "state validation failed") := by
  rw [apply_value.eq_def, hp]
  simp only
  rw [hn]
  simp only
  rw [hm]

/-! Claim theorems. -/

/-- C10: for every value and every path with no segments (empty or only
slashes), apply_value raises before any mutation: the document is
returned unchanged, no diff is produced and the version is untouched. -/
theorem claim_C10 (st : List (String × Json)) (path : String) (value : Json)
    (h : parsePath path = []) :
    apply_value st path value = (st, .error "path must not be empty") := by
  rw [apply_value.eq_def, h]

theorem claim_C10_witness :
    parsePath "///" = [] ∧
      apply_value pumpDoc "///" Json.null = (pumpDoc, .error "path must not be empty") :=
  ⟨by decide, claim_C10 pumpDoc "///" Json.null (by decide)⟩

/-- C7: replace_state validates its input; a failing input raises and
leaves the current document exactly as it was, a validating input
atomically swaps the current document for the validated normalized
dump. -/
theorem claim_C7 (st raw : List (String × Json)) :
    (model_validate raw = none →
      replace_state st raw = (st, .error "validation error")) ∧
    (∀ m, model_validate raw = some m →
      replace_state st raw = (model_dump m, .ok ())) := by
  constructor
  · intro h
    rw [replace_state.eq_def, h]
  · intro m h
    rw [replace_state.eq_def, h]

theorem claim_C7_witness :
    (model_validate [] = none ∧
      replace_state pumpDoc [] = (pumpDoc, .error "validation error")) ∧
    (model_validate pumpDoc = some ⟨[], [("pump_1", .obj [("status", .str "running")])], [], 1⟩ ∧
      replace_state invalidDoc pumpDoc =
        (model_dump ⟨[], [("pump_1", .obj [("status", .str "running")])], [], 1⟩, .ok ())) :=
  ⟨⟨by decide, (claim_C7 pumpDoc []).1 (by decide)⟩,
   ⟨by decide, (claim_C7 invalidDoc pumpDoc).2 _ (by decide)⟩⟩

/-- C5: every command name outside the known set fails with an error
naming the offending command, the document is completely unchanged (a
snapshot after equals a snapshot before, same version) and no diff is
produced or broadcast. -/
theorem claim_C5 (command : String) (params : List (String × Json))
    (st : List (String × Json))
    (h1 : command ≠ "toggle_pump") (h2 : command ≠ "set_pump_speed") :
    handle_command command params st =
      ⟨snapshot st, .error ("Unknown command: " ++ command), none⟩ := by
  rw [handle_command, snapshot]
  simp [h1, h2]

theorem claim_C5_witness :
    ("frobnicate" ≠ "toggle_pump") ∧ ("frobnicate" ≠ "set_pump_speed") ∧
      handle_command "frobnicate" [] pumpDoc =
        ⟨snapshot pumpDoc, .error ("Unknown command: " ++ "frobnicate"), none⟩ :=
  ⟨by decide, by decide, claim_C5 "frobnicate" [] pumpDoc (by decide) (by decide)⟩

/-- C8: in a broadcast pass over any registry with any set of failing
deliveries, every observer whose delivery does not fail receives the one
patch message built from the (diff, version) pair, every delivered
message is that identical message, and the registry afterwards consists
of exactly the observers whose delivery did not fail (failed observers
are removed only after the full pass, which the model reflects by
computing all deliveries from the registry snapshot taken before any
removal). -/
theorem claim_C8 (conns : List String) (fails : String → Bool)
    (patch : List POp) (version : Int) :
    (∀ c ∈ conns, fails c = false →
      (c, mkPatchMessage patch version) ∈ (broadcast_patch conns fails patch version).1) ∧
    (∀ q ∈ (broadcast_patch conns fails patch version).1,
      q.2 = mkPatchMessage patch version) ∧
    (broadcast_patch conns fails patch version).2 =
      conns.filter (fun c => !(fails c)) := by
  refine ⟨?_, ?_, ?_⟩
  · intro c hc hfc
    rw [broadcast_patch]
    simp only [List.mem_map]
    exact ⟨c, List.mem_filter.mpr ⟨hc, by simp [hfc]⟩, rfl⟩
  · intro q hq
    rw [broadcast_patch] at hq
    simp only [List.mem_map] at hq
    obtain ⟨c, _, hc2⟩ := hq
    rw [← hc2]
  · rw [broadcast_patch]
    simp only
    split
    · rename_i hemp
      have hnone : ∀ c ∈ conns, fails c = false := by
        intro c hc
        by_cases hfc : fails c = true
        · exfalso
          have : c ∈ conns.filter fails := List.mem_filter.mpr ⟨hc, hfc⟩
          rw [List.isEmpty_iff] at hemp
          rw [hemp] at this
          cases this
        · simpa using hfc
      rw [List.filter_eq_self.mpr (by intro c hc; simp [hnone c hc])]
    · refine List.filter_congr ?_
      intro c hc
      cases hfc : fails c
      · have hnm : c ∉ conns.filter fails := by
          intro hmem
          rw [(List.mem_filter.mp hmem).2] at hfc
          exact Bool.noConfusion hfc
        cases hcd : (conns.filter fails).contains c
        · simp [hcd, hfc, hc]
        · exact absurd (List.elem_iff.mp hcd) hnm
      · have hmem : c ∈ conns.filter fails := List.mem_filter.mpr ⟨hc, hfc⟩
        have hcd : (conns.filter fails).contains c = true := List.elem_iff.mpr hmem
        simp [hcd, hfc, hc]

theorem claim_C8_witness :
    ("c" ∈ ["a", "b", "c"]) ∧ ((fun s => s == "b") "c" = false) ∧
    ("c", mkPatchMessage togglePatch1 2) ∈
      (broadcast_patch ["a", "b", "c"] (fun s => s == "b") togglePatch1 2).1 ∧
    (broadcast_patch ["a", "b", "c"] (fun s => s == "b") togglePatch1 2).2 =
      ["a", "b", "c"].filter (fun c => !((fun s => s == "b") c)) :=
  ⟨by decide, by decide,
   (claim_C8 ["a", "b", "c"] (fun s => s == "b") togglePatch1 2).1 "c"
     (by decide) (by decide),
   (claim_C8 ["a", "b", "c"] (fun s => s == "b") togglePatch1 2).2.2⟩

/-- C6: for every document and every non-empty path, the apply_value
mutation walk creates each missing or non-dict intermediate segment as an
empty dict instead of failing and then sets the leaf, so reading the path
back yields the written value; concretely, applyValue of
"equipment/new_device/status" to "idle" on a document lacking
equipment.new_device creates the nested mapping and the whole call
succeeds because the resulting document satisfies the schema. -/
theorem claim_C6 (st : List (String × Json)) (keys : List String) (value : Json)
    (h : keys ≠ []) :
    getJsonPath (Json.obj (setPathViv st keys value)) keys = some value ∧
    apply_value pumpDoc "equipment/new_device/status" (Json.str "idle") =
      (newDeviceDoc, .ok (newDevicePatch, 2)) :=
  ⟨getJsonPath_setPathViv keys st value h, by decide⟩

theorem claim_C6_witness :
    ((["equipment", "new_device", "status"] : List String) ≠ []) ∧
    (getJsonPath
        (Json.obj (setPathViv pumpDoc ["equipment", "new_device", "status"]
          (Json.str "idle")))
        ["equipment", "new_device", "status"] = some (Json.str "idle") ∧
      apply_value pumpDoc "equipment/new_device/status" (Json.str "idle") =
        (newDeviceDoc, .ok (newDevicePatch, 2))) :=
  ⟨by decide,
   claim_C6 pumpDoc ["equipment", "new_device", "status"] (Json.str "idle") (by decide)⟩

/-- C3 as stated is false: on the document
{equipment: {pump_1: {status: "running"}}, version: 1} exactly as given,
executing toggle_pump does not return version 2 with a single-operation
diff; the post-mutation validation fails because the schema requires the
sensors and alerts fields, so the command raises a validation error and
broadcasts nothing. -/
theorem claim_C3_cex :
    handle_command "toggle_pump" [] pumpOnlyDoc =
      ⟨[("equipment", .obj [("pump_1", .obj [("status", .str "stopped")])]),
        ("version", .num 2)],
       .error "state validation failed", none⟩ := by
  decide

/-- C3 amended: starting from the claimed document extended with the
empty sensors and alerts fields the schema requires, toggle_pump returns
version 2 with the diff replacing the pump status by "stopped" followed by
the version replace operation (the diff also contains the version
operation, not only the status operation), and a second toggle_pump
returns version 3 with the diff replacing the status back to "running"
plus the version operation. -/
theorem claim_C3 :
    handle_command "toggle_pump" [] pumpDoc =
      ⟨pumpDocStopped, .ok 2, some (togglePatch1, 2)⟩ ∧
    patchToJson togglePatch1 =
      .arr [.obj [("op", .str "replace"), ("path", .str "/equipment/pump_1/status"),
                  ("value", .str "stopped")],
            .obj [("op", .str "replace"), ("path", .str "/version"), ("value", .num 2)]] ∧
    handle_command "toggle_pump" [] pumpDocStopped =
      ⟨pumpDocRunning3, .ok 3, some (togglePatch2, 3)⟩ ∧
    patchToJson togglePatch2 =
      .arr [.obj [("op", .str "replace"), ("path", .str "/equipment/pump_1/status"),
                  ("value", .str "running")],
            .obj [("op", .str "replace"), ("path", .str "/version"), ("value", .num 3)]] := by
  refine ⟨by decide, by decide, by decide, by decide⟩

/-- C1 as stated is false: a successful apply_value call whose path
targets the version field itself can skip version values; writing 100
into the version of a document at version 1 succeeds and returns version
101 instead of 2, so the returned versions are not V+1, ..., V+N. -/
theorem claim_C1_cex :
    runSeq pumpDoc [("version", Json.num 100)] = .ok ([101], verDoc101) ∧
    versionsFrom 1 1 = [2] ∧ ([101] : List Int) ≠ [2] :=
  ⟨by decide, by decide, by decide⟩

/-- C1 amended: for every sequence of N apply_value calls that all
succeed, starting from a document at integer version V, provided no call
path targets the version field itself, the returned versions are exactly
V+1, V+2, ..., V+N with no gaps or repeats (the version is incremented by
exactly one per successful mutation). -/
theorem claim_C1 (st : List (String × Json)) (calls : List (String × Json))
    (V : Int) (vers : List Int) (stf : List (String × Json))
    (hV : getKey st "version" = some (Json.num V))
    (hne : ∀ c ∈ calls, parsePath c.1 ≠ ["version"])
    (h : runSeq st calls = .ok (vers, stf)) :
    vers = versionsFrom V calls.length := by
  induction calls generalizing st V vers stf with
  | nil =>
    rw [runSeq] at h
    injection h with h2
    have hv : vers = [] := (congrArg Prod.fst h2).symm
    rw [hv, List.length_nil, versionsFrom]
  | cons c rest ih =>
    obtain ⟨p, v⟩ := c
    rw [runSeq] at h
    split at h
    · exact Except.noConfusion h
    · rename_i st1 pr ver hav
      split at h
      · exact Except.noConfusion h
      · rename_i vers2 stf2 hrun
        injection h with h2
        have hv : vers = ver :: vers2 := (congrArg Prod.fst h2).symm
        obtain ⟨hv1, hv2⟩ := apply_value_version st p v st1 pr ver V hV
          (hne (p, v) (List.mem_cons_self _ _)) hav
        have htail := ih st1 (V + 1) vers2 stf2 hv2
          (fun c2 hc2 => hne c2 (List.mem_cons_of_mem _ hc2)) hrun
        rw [hv, List.length_cons, versionsFrom, hv1, htail]

theorem claim_C1_witness :
    (getKey pumpDoc "version" = some (Json.num 1)) ∧
    (∀ c ∈ ([("equipment/pump_1/status", Json.str "stopped")] : List (String × Json)),
      parsePath c.1 ≠ ["version"]) ∧
    (runSeq pumpDoc [("equipment/pump_1/status", Json.str "stopped")] =
      .ok ([2], pumpDocStopped)) ∧
    ([2] : List Int) =
      versionsFrom 1 [("equipment/pump_1/status", Json.str "stopped")].length :=
  ⟨by decide, by decide, by decide,
   claim_C1 pumpDoc [("equipment/pump_1/status", Json.str "stopped")] 1 [2]
     pumpDocStopped (by decide) (by decide) (by decide)⟩

/-- C4 as stated is false in its last clause: a failed post-mutation
validation does leave the engine holding the mutated document without
rollback, but when the path targets the version field itself the write
can cancel the subsequent increment, so the stored document can be
identical to the pre-call document; on a schema-invalid document at
version 2, writing 1 into the version fails validation and the stored
document equals the pre-call document exactly. -/
theorem claim_C4_cex :
    apply_value invalidDoc "version" (Json.num 1) =
      (invalidDoc, .error "state validation failed") := by
  decide

/-- C4 amended: for every apply_value call whose post-mutation schema
validation fails, the call raises a validation error and the engine keeps
the leaf-mutated document with the already-incremented version, with no
rollback; whenever the path does not target the version field itself,
that stored document differs from the pre-call document. -/
theorem claim_C4 (st : List (String × Json)) (p : String) (v : Json)
    (k : String) (ks : List String) (n : Int)
    (hp : parsePath p = k :: ks)
    (hne : k :: ks ≠ ["version"])
    (hn : pyInt ((getKey (setPathViv st (k :: ks) v) "version").getD (Json.num 0)) =
      some n)
    (hm : model_validate (setKey (setPathViv st (k :: ks) v) "version"
      (Json.num (n + 1))) = none) :
    apply_value st p v =
      (setKey (setPathViv st (k :: ks) v) "version" (Json.num (n + 1)),
        .error "state validation failed") ∧
    setKey (setPathViv st (k :: ks) v) "version" (Json.num (n + 1)) ≠ st := by
  refine ⟨apply_value_validation_error st p v k ks n hp hn hm, ?_⟩
  intro heq
  by_cases hk : k = "version"
  · subst hk
    cases ks with
    | nil => exact hne rfl
    | cons k2 ks2 =>
      obtain ⟨o, ho⟩ := getKey_setPathViv_head st "version" k2 ks2 v
      rw [ho] at hn
      simp only [Option.getD_some] at hn
      rw [pyInt_obj] at hn
      exact Option.noConfusion hn
  · have h1 : getKey (setKey (setPathViv st (k :: ks) v) "version" (Json.num (n + 1)))
        "version" = some (Json.num (n + 1)) := getKey_setKey_self _ _ _
    rw [heq] at h1
    have h2 := getKey_setPathViv_ne st k "version" ks v (fun hh => hk hh.symm)
    rw [h2, h1] at hn
    simp only [Option.getD_some] at hn
    rw [pyInt_num] at hn
    injection hn with hn2
    omega

theorem claim_C4_witness :
    (parsePath "equipment/pump_1" = ["equipment", "pump_1"]) ∧
    ((["equipment", "pump_1"] : List String) ≠ ["version"]) ∧
    (pyInt ((getKey (setPathViv pumpDoc ["equipment", "pump_1"] (Json.str "oops"))
        "version").getD (Json.num 0)) = some 1) ∧
    (model_validate (setKey (setPathViv pumpDoc ["equipment", "pump_1"]
        (Json.str "oops")) "version" (Json.num (1 + 1))) = none) ∧
    (apply_value pumpDoc "equipment/pump_1" (Json.str "oops") =
      (setKey (setPathViv pumpDoc ["equipment", "pump_1"] (Json.str "oops"))
        "version" (Json.num (1 + 1)),
       .error "state validation failed") ∧
      setKey (setPathViv pumpDoc ["equipment", "pump_1"] (Json.str "oops"))
        "version" (Json.num (1 + 1)) ≠ pumpDoc) :=
  ⟨by decide, by decide, by decide, by decide,
   claim_C4 pumpDoc "equipment/pump_1" (Json.str "oops") "equipment" ["pump_1"] 1
     (by decide) (by decide) (by decide) (by decide)⟩

/-- C2: for every well-formed document and every apply_value call on it
that succeeds returning diff P and a new version, applying P to the
pre-mutation document in list order by the tree-patch rules succeeds and
yields a document deep-equal to the post-mutation document returned by
snapshot. -/
theorem claim_C2 (st : List (String × Json)) (p : String) (v : Json)
    (st2 : List (String × Json)) (pr : List POp) (ver : Int)
    (hwst : (Json.obj st).wf = true) (hwv : v.wf = true)
    (h : apply_value st p v = (st2, .ok (pr, ver))) :
    ∃ mres, applyPatch pr (Json.obj st) = some mres ∧
      deq mres (Json.obj (snapshot st2)) = true := by
  obtain ⟨k, ks, n, m, hp, hn, hm, hst2, hver, hpr⟩ := apply_value_ok st p v st2 pr ver h
  have hw3 : (Json.obj (setKey (setPathViv st (k :: ks) v) "version"
      (Json.num (n + 1)))).wf = true :=
    wf_setKey _ _ _ (wf_setPathViv (k :: ks) st v hwst hwv) (wf_num (n + 1))
  have hwdump : (Json.obj (model_dump m)).wf = true := wf_model_dump _ m hw3 hm
  refine ⟨patchResult (Json.obj st) (Json.obj (model_dump m)), ?_, ?_⟩
  · rw [hpr]
    exact applyPatch_diff _ _ hwst hwdump
  · rw [snapshot, hst2]
    exact deq_patchResult _ _ hwst hwdump

theorem claim_C2_witness :
    ((Json.obj pumpDoc).wf = true) ∧ ((Json.str "stopped").wf = true) ∧
    (apply_value pumpDoc "equipment/pump_1/status" (Json.str "stopped") =
      (pumpDocStopped, .ok (togglePatch1, 2))) ∧
    (∃ mres, applyPatch togglePatch1 (Json.obj pumpDoc) = some mres ∧
      deq mres (Json.obj (snapshot pumpDocStopped)) = true) :=
  ⟨by decide, by decide, by decide,
   claim_C2 pumpDoc "equipment/pump_1/status" (Json.str "stopped") pumpDocStopped
     togglePatch1 2 (by decide) (by decide) (by decide)⟩
